import Mathlib

/-!
Verification of the MarketingAdvantage ingestion pipeline against its
natural-language specification.

The development shallowly embeds the Python sources:
* `app/services/ingestion/segmenter_v2.py` (recursive semantic chunker,
  small-chunk merging, dedup-aware chunk builder, global content index upsert);
* `app/services/ingestion/ingestion_service_v2.py` (media-level dedup,
  pipeline, chunk dedup, chunk insertion, embedding store);
* `api/services/llm_classifier.py` (LLM classifier with retries and fallback);
* `api/services/unified_ingest_helper.py` (relational ingest with commits).

Python strings are embedded as `List Char`; machine-level details that the
sources delegate to libraries (SHA-256, the LLM endpoint, JSON decoding) are
abstracted as function parameters, since no claim depends on their internals,
only on determinism.
-/

set_option autoImplicit false
set_option maxRecDepth 1000000

namespace MA

/-- Whitespace characters removed by Python `str.strip()` (ASCII range). -/
def isPyWs (c : Char) : Bool :=
  c = ' ' || c = '\t' || c = '\n' || c = '\r' || c = Char.ofNat 11 || c = Char.ofNat 12

/-- Modelled from the spec: printability test used by the Text Normalizer
(section 4.1).  The missing source file `app/utils/text_cleaner_v2.py` is
specified as keeping every printable character; printability is modelled on
the ASCII range (32..126) plus non-control codepoints at 161 and above, which
matches Python `str.isprintable` on the inputs the claims exercise. -/
def pyIsPrintable (c : Char) : Bool :=
  (32 ≤ c.toNat && c.toNat ≤ 126) || 161 ≤ c.toNat

/-- Modelled from the spec: a character survives the Text Normalizer when it
is printable or one of newline, carriage return, tab (section 4.1).  This is
also literally the filter of `clean_text_for_postgres` in
`api/services/unified_ingest_helper.py`. -/
def keepChar (c : Char) : Bool :=
  pyIsPrintable c || c = '\n' || c = '\r' || c = '\t'

/-- Modelled from the spec: `clean_text` of the missing source file
`app/utils/text_cleaner_v2.py` (Text Normalizer, spec section 4.1): null
bytes are removed and every remaining character is printable or in the
allowed whitespace set.  Two filter passes mirror the null-byte removal
followed by the printability filter. -/
def cleanText (l : List Char) : List Char :=
  (l.filter (fun c => c ≠ Char.ofNat 0)).filter keepChar

/-- Python `str.strip()` on a character list: drop leading and trailing
whitespace. -/
def pyStrip (l : List Char) : List Char :=
  ((l.dropWhile isPyWs).reverse.dropWhile isPyWs).reverse

/-- Python `str.strip()` on a `String`. -/
def pyStripStr (s : String) : String :=
  (pyStrip s.toList).asString

/-- Helper for Python `str.split()`: accumulate the current word (reversed)
and split on whitespace runs, dropping empty words. -/
def wordsAux (cur : List Char) : List Char → List (List Char)
  | [] => if cur = [] then [] else [cur.reverse]
  | c :: rest =>
    if isPyWs c then
      if cur = [] then wordsAux [] rest else cur.reverse :: wordsAux [] rest
    else wordsAux (c :: cur) rest

/-- Python `text.split()` (whitespace split, empty words dropped). -/
def pyWords (l : List Char) : List (List Char) :=
  wordsAux [] l

/-- `count_tokens` in `segmenter_v2.py`: `len(text.split())`. -/
def countTokens (l : List Char) : Nat :=
  (pyWords l).length

/-- Sentence-ending punctuation of the chunker regex `(?<=[.!?]) +`. -/
def isSentencePunct (c : Char) : Bool :=
  c = '.' || c = '!' || c = '?'

/-- Scanner for `re.split(r"(?<=[.!?]) +", cleaned)` in
`recursive_semantic_chunk`: split at every maximal run of spaces that is
immediately preceded by `.`, `!` or `?`; the punctuation stays with the left
piece and the spaces are consumed.  `mode` records that the scanner is still
inside the space run of a match, so further spaces are consumed silently;
the one-character-at-a-time formulation keeps the recursion structural. -/
def splitSentencesGo (mode : Bool) (acc : List Char) : List Char → List (List Char)
  | [] => [acc.reverse]
  | c :: rest =>
    if mode then
      if c = ' ' then splitSentencesGo true acc rest
      else if isSentencePunct c ∧ rest.head? = some ' ' then
        (acc.reverse ++ [c]) :: splitSentencesGo true [] rest
      else splitSentencesGo false (c :: acc) rest
    else if isSentencePunct c ∧ rest.head? = some ' ' then
      (acc.reverse ++ [c]) :: splitSentencesGo true [] rest
    else splitSentencesGo false (c :: acc) rest

/-- `re.split(r"(?<=[.!?]) +", cleaned)` from `recursive_semantic_chunk`. -/
def splitSentences (l : List Char) : List (List Char) :=
  splitSentencesGo false [] l

/-- The sentence accumulation loop of `recursive_semantic_chunk`
(`segmenter_v2.py`, lines 195-203): grow `current` with a space and the next
sentence while the combined length stays below `max_chunk_len`, otherwise
append `current.strip()` and restart from the sentence.  The final nonempty
`current` is appended stripped. -/
def accGo (maxLen : Nat) (cur : List Char) : List (List Char) → List (List Char)
  | [] => if cur = [] then [] else [pyStrip cur]
  | s :: rest =>
    if cur.length + s.length < maxLen then accGo maxLen (cur ++ ' ' :: s) rest
    else pyStrip cur :: accGo maxLen s rest

/-- The `chunks` list built from `sentences` in `recursive_semantic_chunk`. -/
def accChunks (maxLen : Nat) (sents : List (List Char)) : List (List Char) :=
  accGo maxLen [] sents

/-- One chunk dictionary as produced by `make_chunk_dict` in
`segmenter_v2.py`.  Fields the claims never inspect (confidence, source type,
the reasoning-ingestion block, the global content id) are projected away;
every kept field is an `Option` so that the empty dictionary returned for
blank input is representable (`none` in every field, as Python `dict.get`
then yields `None`). -/
structure ChunkV2 where
  text : Option (List Char)
  cleaned_text : Option (List Char)
  tokens : Option Nat
  semantic_hash : Option String
deriving DecidableEq, Repr

/-- The empty dictionary returned by `make_chunk_dict` when the cleaned text
strips to nothing. -/
def emptyChunk : ChunkV2 :=
  ⟨none, none, none, none⟩

/-- Pure content of `make_chunk_dict` (`segmenter_v2.py`, lines 238-319):
clean the text, return the empty dict when it strips to nothing, otherwise
build the chunk dictionary with `semantic_hash = SHA256(cleaned)`.  SHA-256
is abstracted as the parameter `shash`, since no claim depends on its
internals.  The database side effect on the Global Content Index performed by
the same function is modelled separately as `gciUpsert`. -/
def makeChunkDict (shash : List Char → String) (t : List Char) : ChunkV2 :=
  let cleaned := cleanText t
  if pyStrip cleaned = [] then emptyChunk
  else
    { text := some t
      cleaned_text := some cleaned
      tokens := some (countTokens cleaned)
      semantic_hash := some (shash cleaned) }

/-- The string `merge_small_chunks` reads out of a list element:
`ch.get("cleaned_text") or ch.get("text") or ""` with Python truthiness. -/
def chunkExtract (c : ChunkV2) : List Char :=
  let fallback : List Char :=
    match c.text with
    | some t => if t = [] then [] else t
    | none => []
  match c.cleaned_text with
  | some l => if l = [] then fallback else l
  | none => fallback

/-- Loop body of `merge_small_chunks` (`segmenter_v2.py`, lines 116-139),
with the accumulated `buffer` made explicit: blank entries are skipped,
entries shorter than `min_len` are appended to the buffer after a space, and
a long entry first flushes a nonempty buffer stripped.  A trailing nonempty
buffer is flushed stripped. -/
def mergeGo (minLen : Nat) (buf : List Char) : List (List Char) → List (List Char)
  | [] => if buf = [] then [] else [pyStrip buf]
  | ch :: rest =>
    if pyStrip ch = [] then mergeGo minLen buf rest
    else if ch.length < minLen then mergeGo minLen (buf ++ ' ' :: ch) rest
    else if buf = [] then ch :: mergeGo minLen [] rest
    else pyStrip buf :: ch :: mergeGo minLen [] rest

/-- `merge_small_chunks(chunks, min_len)` with every element already
extracted to a string. -/
def mergeSmallChunks (l : List (List Char)) (minLen : Nat) : List (List Char) :=
  mergeGo minLen [] l

/-- The `refined` loop of `recursive_semantic_chunk` (lines 205-218):
entries longer than `max_chunk_len` are replaced by the recursive result
(whose chunk dictionaries are later read back as strings by
`merge_small_chunks`, hence the `chunkExtract`), shorter entries are kept.
The recursive call is abstracted as `F`; it returns `none` when the fuel of
the caller runs out. -/
def refineWith (F : List Char → Option (List ChunkV2)) (maxLen : Nat) :
    List (List Char) → Option (List (List Char))
  | [] => some []
  | ch :: rest =>
    if maxLen < ch.length then
      match F ch, refineWith F maxLen rest with
      | some sub, some r => some (sub.map chunkExtract ++ r)
      | _, _ => none
    else
      match refineWith F maxLen rest with
      | some r => some (ch :: r)
      | none => none

/-- Fuel-indexed embedding of `recursive_semantic_chunk`
(`segmenter_v2.py`, lines 151-233) in its pure projection (the database
session only affects the Global Content Index, modelled separately, and the
`global_content_id` field, which no claim inspects).  `none` means the fuel
was exhausted; the source function has no fuel and instead recurses
unboundedly.  Note that the source omits `max_chunk_len` and `min_chunk_len`
from every recursive call, so nested levels revert to the defaults 600 and
150; the embedding reproduces that faithfully. -/
def rscFuel (shash : List Char → String) :
    Nat → List Char → Nat → Nat → Option (List ChunkV2)
  | 0, _, _, _ => none
  | fuel + 1, text, maxLen, minLen =>
    let cleaned := cleanText text
    if pyStrip cleaned = [] then some []
    else if cleaned.length ≤ maxLen then some [makeChunkDict shash cleaned]
    else
      let sents := splitSentences cleaned
      if sents.length = 1 then
        match rscFuel shash fuel (cleaned.take (cleaned.length / 2)) 600 150,
              rscFuel shash fuel (cleaned.drop (cleaned.length / 2)) 600 150 with
        | some ls, some rs => some (ls ++ rs)
        | _, _ => none
      else
        match refineWith (fun ch => rscFuel shash fuel ch 600 150) maxLen
                (accChunks maxLen sents) with
        | none => none
        | some refined =>
          some ((mergeSmallChunks refined minLen).map (makeChunkDict shash))

/-! ## Database model of `ingestion_service_v2.py`

The relational rows are modelled from the spec data model (section 3), since
the SQLAlchemy model files under `app/db/models/` are not part of the
sources; only the columns the claims inspect are kept. -/

/-- Status values of a File Record (spec section 3). -/
inductive FileStatus where
  | uploaded
  | processing
  | processed
  | duplicate
  | failed
deriving DecidableEq, Repr

/-- Modelled from the spec: one `IngestedFileV2` row (File Record, spec
section 3).  `file_hash` is the value of `meta_data["file_hash"]`; `hasPath`
records whether `file_path` is set (the media dedup block only runs for
records with a path). -/
structure FileRec where
  id : Nat
  file_hash : Option String
  status : FileStatus
  total_chunks : Nat
  hasPath : Bool
deriving DecidableEq, Repr

/-- Modelled from the spec: one `IngestedContentV2` row (Chunk Record, spec
section 3), projected to the columns the claims inspect. -/
structure ContentRow where
  file_id : Nat
  chunk_index : Nat
  cleaned_text : Option (List Char)
  semantic_hash : Option String
deriving DecidableEq, Repr

/-- Modelled from the spec: one `GlobalContentIndexV2` row (Global Content
Index Entry, spec section 3). -/
structure GciRow where
  id : Nat
  semantic_hash : String
  cleaned_text : List Char
  occurrence_count : Nat
  first_seen_file_id : Nat
deriving DecidableEq, Repr

/-- The stores touched by `IngestionServiceV2`: the three relational tables
and the Chroma collection, the latter projected to its list of vector ids
(the id of a vector equals the chunk `semantic_hash`). -/
structure DbState where
  files : List FileRec
  contents : List ContentRow
  gci : List GciRow
  vectors : List String
deriving DecidableEq, Repr

/-- `IngestionServiceV2._update_file_status`: set `total_chunks` and
`status` of the row with the given id. -/
def updateFileStatus (st : DbState) (fid : Nat) (total : Nat) (status : FileStatus) :
    DbState :=
  { st with
    files := st.files.map (fun f =>
      if f.id == fid then { f with total_chunks := total, status := status } else f) }

/-- The early hash persist of `process_file`: write the computed file hash
into `meta_data` of the current record. -/
def setFileHash (st : DbState) (fid : Nat) (h : String) : DbState :=
  { st with
    files := st.files.map (fun f =>
      if f.id == fid then { f with file_hash := some h } else f) }

/-- The query of the media dedup block of `process_file` (lines 347-352):
File Records whose `meta_data["file_hash"]` matches and whose status is
`processed`. -/
def processedHashMatches (files : List FileRec) (h : String) : List FileRec :=
  files.filter (fun f => decide (f.file_hash = some h ∧ f.status = FileStatus.processed))

/-- `IngestionServiceV2._dedup_chunks` (lines 663-680): collect the non-null
semantic hashes of the batch, return `[]` when there are none, otherwise
query existing Chunk Records with the same `file_id` and a hash in the
batch, and retain the chunks whose hash is not among them. -/
def dedupChunks (st : DbState) (chunks : List ChunkV2) (fid : Nat) : List ChunkV2 :=
  let hashes := chunks.filterMap (fun c => c.semantic_hash)
  if hashes.isEmpty then []
  else
    let existing := (st.contents.filter (fun r =>
      decide (r.file_id = fid) &&
        match r.semantic_hash with
        | some h => hashes.contains h
        | none => false)).filterMap (fun r => r.semantic_hash)
    chunks.filter (fun c =>
      match c.semantic_hash with
      | some h => !(existing.contains h)
      | none => true)

/-- `SELECT max(chunk_index) WHERE file_id = fid` of `_insert_chunks`:
`none` models SQL `NULL` on an empty set. -/
def maxChunkIndex (contents : List ContentRow) (fid : Nat) : Option Nat :=
  (contents.filter (fun r => decide (r.file_id = fid))).foldl
    (fun acc r =>
      match acc with
      | none => some r.chunk_index
      | some m => some (Nat.max m r.chunk_index))
    none

/-- The `start_index = (result.scalar() or -1) + 1` computation of
`_insert_chunks` (line 694), with Python `or` truthiness: both `None` and
`0` are falsy, so both map to `-1`, giving start index `0`. -/
def startIndexOf (m : Option Nat) : Nat :=
  match m with
  | none => 0
  | some k => if k = 0 then 0 else k + 1

/-- `IngestionServiceV2._insert_chunks` (lines 685-720): append one Chunk
Record per chunk with dense indices from the computed start index. -/
def insertChunks (st : DbState) (fid : Nat) (chunks : List ChunkV2) : DbState :=
  let start := startIndexOf (maxChunkIndex st.contents fid)
  { st with
    contents := st.contents ++ chunks.mapIdx (fun i c =>
      { file_id := fid
        chunk_index := start + i
        cleaned_text := c.cleaned_text
        semantic_hash := c.semantic_hash }) }

/-- Chroma `collection.upsert`: ids not yet present are appended, existing
ids are overwritten in place (hence no change to the id list). -/
def upsertIds (v : List String) (ids : List String) : List String :=
  ids.foldl (fun acc h => if acc.contains h then acc else acc ++ [h]) v

/-- `IngestionServiceV2._embed_and_store` (lines 727-858), projected to its
effect on the vector ids: a hash needs embedding when it is absent from the
Global Content Index or absent from Chroma; the needed hashes are upserted
with the hash as vector id. -/
def embedAndStore (st : DbState) (chunks : List ChunkV2) : DbState :=
  let allHashes := chunks.filterMap (fun c => c.semantic_hash)
  let needs := allHashes.filter (fun h =>
    !((st.gci.map (fun r => r.semantic_hash)).contains h) || !(st.vectors.contains h))
  { st with vectors := upsertIds st.vectors needs }

/-- `IngestionServiceV2._run_pipeline` (lines 500-521) from the extracted
chunk list onward: an empty extraction returns with no state change; a batch
fully removed by dedup marks the file `processed` with zero chunks;
otherwise insert, embed and mark `processed` with the unique count. -/
def runPipeline (st : DbState) (fid : Nat) (chunks : List ChunkV2) : DbState :=
  if chunks.isEmpty then st
  else
    let uniq := dedupChunks st chunks fid
    if uniq.isEmpty then updateFileStatus st fid 0 FileStatus.processed
    else
      let st1 := insertChunks st fid uniq
      let st2 := embedAndStore st1 uniq
      updateFileStatus st2 fid uniq.length FileStatus.processed

/-- Keyword list of `_looks_like_visual_content`. -/
def visualKeywords : List (List Char) :=
  ["%", "chart", "graph", "table", "figure", "axis", "source:", "year",
   "2019", "2020", "2021", "2022", "2023", "2024", "2025", "2026"].map
    String.toList

/-- Decides whether the pattern is an initial segment of the list. -/
def startsWithChars : List Char → List Char → Bool
  | [], _ => true
  | _ :: _, [] => false
  | p :: ps, c :: cs => p == c && startsWithChars ps cs

/-- Python `needle in hay` on character lists. -/
def containsSub (needle hay : List Char) : Bool :=
  hay.tails.any (fun t => startsWithChars needle t)

/-- `_looks_like_visual_content` (`ingestion_service_v2.py`, lines 94-113):
text of length at least 80 whose digit ratio exceeds 0.35 or which contains
at least two of the keywords (case-insensitively). -/
def looksLikeVisual (text : List Char) : Bool :=
  if text.length < 80 then false
  else
    let digits := (text.filter (fun c => c.isDigit)).length
    let lower := text.map Char.toLower
    let hits := (visualKeywords.filter (fun k => containsSub k lower)).length
    (100 * digits > 35 * text.length) || hits ≥ 2

/-- The single-text path of `IngestionServiceV2._extract_chunks` (lines
615-651): no text yields no chunks; visual-looking text is first sent to the
LLM rewriter (`llmExplain`, empty result meaning failure) and its
explanation chunked; otherwise the text itself is chunked with the default
parameters.  The fuel `length + 2` is sufficient by `rscFuel_isSome_general`
below. -/
def extractChunksModel (shash : List Char → String) (llmExplain : List Char → List Char)
    (text : List Char) : List ChunkV2 :=
  if text = [] then []
  else if looksLikeVisual text && !(llmExplain text).isEmpty then
    ((rscFuel shash ((llmExplain text).length + 2) (llmExplain text) 600 150).getD [])
  else
    (rscFuel shash (text.length + 2) text 600 150).getD []

/-- `IngestionServiceV2.process_file` (lines 327-453), projected to the
state effects the claims inspect.  The record is looked up; when it has a
path, the media-level dedup block computes the file hash (`hashF` abstracts
SHA-256 over the bytes), looks for a `processed` record with the same hash
(`scalar_one_or_none`: two or more matches raise, the exception is caught
and the block is skipped without persisting the hash), stops with status
`duplicate` and zero chunks on a hit with a different id, and otherwise
persists the hash early.  Then parsing (the parsed text is supplied, `none`
modelling a parser failure, on which the function returns) and the pipeline
run.  A missing record with a `file_path` would enter the re-creation branch
of the source, which reads an uninitialized variable (`media_hash`) and so
always raises and leaves no state change beyond an error update on a row
that does not exist; it is modelled as the identity. -/
def processFileModel (shash : List Char → String) (hashF : List Nat → String)
    (llmExplain : List Char → List Char) (st : DbState) (fid : Nat)
    (bytes : List Nat) (parsedText : Option (List Char)) : DbState :=
  match st.files.find? (fun f => f.id == fid) with
  | none => st
  | some rec =>
    let dedupRes : DbState × Bool :=
      if rec.hasPath then
        let h := hashF bytes
        match processedHashMatches st.files h with
        | [g] =>
          if g.id ≠ fid then (updateFileStatus st fid 0 FileStatus.duplicate, true)
          else (setFileHash st fid h, false)
        | [] => (setFileHash st fid h, false)
        | _ => (st, false)
      else (st, false)
    if dedupRes.2 then dedupRes.1
    else
      match parsedText with
      | none => dedupRes.1
      | some t => runPipeline dedupRes.1 fid (extractChunksModel shash llmExplain t)

/-- The occurrence count recorded for a semantic hash in the Global Content
Index. -/
def occOf (tbl : List GciRow) (h : String) : Option Nat :=
  (tbl.find? (fun r => r.semantic_hash == h)).map (fun r => r.occurrence_count)

/-- The Global Content Index transaction of `make_chunk_dict`
(`segmenter_v2.py`, lines 256-302): an `INSERT .. ON CONFLICT
(semantic_hash) DO NOTHING` with `occurrence_count = 1`, followed by a
`SELECT` of the row for the hash, followed — whenever the row exists, with
no condition on whether the insert conflicted — by an `UPDATE` incrementing
`occurrence_count`. -/
def gciUpsert (tbl : List GciRow) (nextId : Nat) (h : String)
    (cleaned : List Char) (fid : Nat) : List GciRow :=
  let tbl1 :=
    if tbl.any (fun r => r.semantic_hash == h) then tbl
    else tbl ++ [{ id := nextId, semantic_hash := h, cleaned_text := cleaned,
                   occurrence_count := 1, first_seen_file_id := fid }]
  match tbl1.find? (fun r => r.semantic_hash == h) with
  | none => tbl1
  | some row =>
    tbl1.map (fun r =>
      if r.id == row.id then { r with occurrence_count := r.occurrence_count + 1 } else r)

/-! ## Model of `api/services/llm_classifier.py` -/

/-- Values of the classification record.  Arrays and nested objects, which
no claim inspects, are represented by the opaque `compound`. -/
inductive JVal where
  | null
  | str (s : String)
  | num (q : Rat)
  | boolv (b : Bool)
  | compound (tag : Nat)
deriving DecidableEq, Repr

/-- Result of `json.loads`: either not a dictionary (a list, number or
string, on which `normalize_json_schema` raises) or a dictionary with the
given fields. -/
inductive JTop where
  | notDict (tag : Nat)
  | dict (fields : List (String × JVal))
deriving DecidableEq, Repr

/-- First value bound to the key, as Python `dict[k]` / `dict.get(k)`. -/
def lookupField (d : List (String × JVal)) (k : String) : Option JVal :=
  (d.find? (fun p => p.1 == k)).map (fun p => p.2)

/-- Python `dict.setdefault(k, None)`: append the key bound to `None` when
absent. -/
def setdefaultNull (d : List (String × JVal)) (k : String) : List (String × JVal) :=
  if d.any (fun p => p.1 == k) then d else d ++ [(k, JVal.null)]

/-- The required keys of `normalize_json_schema`. -/
def requiredKeys : List String :=
  ["entity_type", "category_level_1", "category_level_2_sub",
   "business_concept_name", "business_specific_name",
   "primary_process_type", "title", "description", "extraction_confidence"]

/-- The opening-brace and closing-brace characters. -/
def braceOpen : Char := Char.ofNat 123

def braceClose : Char := Char.ofNat 125

/-- `re.search` of the brace-to-brace pattern in `parse_llm_json_output`:
the substring from the first opening brace through the last closing brace,
when such a nonempty span exists. -/
def extractBraces (l : List Char) : Option (List Char) :=
  let fromOpen := l.dropWhile (fun c => c ≠ braceOpen)
  let upToClose := (fromOpen.reverse.dropWhile (fun c => c ≠ braceClose)).reverse
  if upToClose.length ≥ 2 then some upToClose else none

/-- The fixed dictionary `parse_llm_json_output` returns when no JSON can be
recovered: `category_level_1 = "Uncategorized"`, confidence 0.4, the raw
output truncated to 250 characters into `description`. -/
def parseFallbackDict (raw : String) : JTop :=
  JTop.dict
    [("entity_type", JVal.str "content"),
     ("category_level_1", JVal.str "Uncategorized"),
     ("category_level_2_sub", JVal.str "General Business"),
     ("business_concept_name", JVal.null),
     ("business_specific_name", JVal.null),
     ("primary_process_type", JVal.str "Other"),
     ("title", JVal.str "Unclassified Entry"),
     ("description", JVal.str (raw.take 250)),
     ("extraction_confidence", JVal.num (2 / 5))]

/-- `parse_llm_json_output` (`llm_classifier.py`, lines 70-99): try a direct
parse, then a parse of the brace-delimited substring, then the fixed
fallback dictionary.  `jsonParse` abstracts `json.loads` (with `none` for a
raised decode error). -/
def parseLlmJsonOutput (jsonParse : String → Option JTop) (raw : String) : JTop :=
  match jsonParse raw with
  | some v => v
  | none =>
    match extractBraces raw.toList with
    | some sub =>
      match jsonParse sub.asString with
      | some v => v
      | none => parseFallbackDict raw
    | none => parseFallbackDict raw

/-- `normalize_json_schema` (lines 102-117): raises on a non-dictionary
(modelled as `Except.error`), fills every required key with `None`, and pops
a `__reasoning_trace` key after slicing its value (slicing raises on a value
that is not a string). -/
def normalizeJsonSchema (t : JTop) : Except Unit (List (String × JVal)) :=
  match t with
  | JTop.notDict _ => Except.error ()
  | JTop.dict d =>
    let d1 := requiredKeys.foldl setdefaultNull d
    match lookupField d1 "__reasoning_trace" with
    | none => Except.ok d1
    | some (JVal.str _) => Except.ok (d1.filter (fun p => p.1 ≠ "__reasoning_trace"))
    | some _ => Except.error ()

/-- One response of the LLM endpoint: a raised exception (unreachable
endpoint, HTTP error, JSON envelope error) or the `response` string of the
Ollama reply. -/
inductive LlmResp where
  | excn
  | resp (raw : String)

/-- The body of one iteration of the retry loop of `classify_text_with_llm`
(lines 141-167): `some rec` is the early `return normalized`, `none` means
the attempt failed or was rejected and the loop continues.  An empty
stripped response raises (caught), a non-dictionary result raises (caught),
and a result whose `category_level_1` is `"Uncategorized"` or `None` is
rejected. -/
def attemptStep (jsonParse : String → Option JTop) (r : LlmResp) :
    Option (List (String × JVal)) :=
  match r with
  | LlmResp.excn => none
  | LlmResp.resp raw =>
    let rawS := pyStripStr raw
    if rawS = "" then none
    else
      match normalizeJsonSchema (parseLlmJsonOutput jsonParse rawS) with
      | Except.error _ => none
      | Except.ok rec =>
        match lookupField rec "category_level_1" with
        | some v =>
          if v = JVal.str "Uncategorized" ∨ v = JVal.null then none else some rec
        | none => none

/-- The retry loop `for attempt in range(max_retries)` with early return. -/
def classifyLoop (jsonParse : String → Option JTop) (behaviour : Nat → LlmResp) :
    Nat → Nat → Option (List (String × JVal))
  | _, 0 => none
  | i, n + 1 =>
    match attemptStep jsonParse (behaviour i) with
    | some rec => some rec
    | none => classifyLoop jsonParse behaviour (i + 1) n

/-- The fixed record returned for empty or whitespace-only input (lines
128-139): confidence 0.0, title `"Empty Input"`. -/
def emptyInputRecord : List (String × JVal) :=
  [("entity_type", JVal.str "content"),
   ("category_level_1", JVal.str "Uncategorized"),
   ("category_level_2_sub", JVal.str "General Business"),
   ("business_concept_name", JVal.null),
   ("business_specific_name", JVal.null),
   ("primary_process_type", JVal.str "Other"),
   ("title", JVal.str "Empty Input"),
   ("description", JVal.str "No text provided for classification."),
   ("extraction_confidence", JVal.num 0)]

/-- The fallback record returned when every retry is exhausted (lines
169-181): confidence 0.4, title `"Classification Error"`, the input
truncated to 200 characters into `description`. -/
def fallbackRecord (text : String) : List (String × JVal) :=
  [("entity_type", JVal.str "content"),
   ("category_level_1", JVal.str "Uncategorized"),
   ("category_level_2_sub", JVal.str "General Business"),
   ("business_concept_name", JVal.null),
   ("business_specific_name", JVal.null),
   ("primary_process_type", JVal.str "Other"),
   ("title", JVal.str "Classification Error"),
   ("description", JVal.str (text.take 200)),
   ("extraction_confidence", JVal.num (2 / 5))]

/-- `classify_text_with_llm` (`llm_classifier.py`, lines 123-181).  The LLM
endpoint is abstracted as `behaviour` (the response of attempt `i`) and
`json.loads` as `jsonParse`.  Every exception of the loop body is caught by
the source, which the totality of this function reflects. -/
def classifyTextWithLlm (jsonParse : String → Option JTop) (behaviour : Nat → LlmResp)
    (text : String) (maxRetries : Nat) : List (String × JVal) :=
  if pyStripStr text = "" then emptyInputRecord
  else
    match classifyLoop jsonParse behaviour 0 maxRetries with
    | some rec => rec
    | none => fallbackRecord text

/-! ## Model of `api/services/unified_ingest_helper.py` -/

/-- One `TaxonomyCategory` row (`api/db/models.py`, class `TaxonomyCategory`),
projected to the columns `process_and_store_document` writes — `name`,
`group` (named `catGroup` here; `group` is taken in Lean) and `description` —
without the database-generated `id` and `created_at`. -/
structure TaxCat where
  name : String
  catGroup : String
  description : String
deriving DecidableEq, Repr

/-- One `Business` row (`api/db/models.py`, class `Business`), projected to
the columns `process_and_store_document` writes — `name`, `industry` and
`description` — without the database-generated `id`, the nullable columns it
leaves unset and `created_at`. -/
structure BusinessRec where
  name : String
  industry : String
  description : String
deriving DecidableEq, Repr

/-- One Content row, projected to the columns the claims inspect. -/
structure ContentRec where
  title : String
  text : List Char
  category : String
  subcategory : String
  fingerprint : String
deriving DecidableEq, Repr

/-- One Entity Link row, projected; categories and business are identified
by name instead of database-generated id. -/
structure LinkRec where
  category : String
  subcategory : String
  business : String
  fingerprint : String
deriving DecidableEq, Repr

/-- The relational store touched by `process_and_store_document`. -/
structure RelState where
  categories : List TaxCat
  businesses : List BusinessRec
  contents : List ContentRec
  links : List LinkRec
deriving DecidableEq, Repr

/-- SQL `ilike` with a plain pattern: case-insensitive equality. -/
def likeEq (a b : String) : Bool :=
  a.toList.map Char.toLower == b.toList.map Char.toLower

/-- `process_and_store_document` (`unified_ingest_helper.py`, lines 72-221)
with failure injection: `failAt = some k` makes the `k`-th `db.commit()`
raise (1 = category commit, 2 = subcategory commit, 3 = business commit,
4 = final content-and-link commit).  A raised commit rolls back only the
changes since the previous commit, so the returned `Except.error` state is
exactly what the session had already committed.  The fingerprint function
abstracts SHA-256.  `Except.ok` carries the final state and the status
string of the returned dictionary. -/
def processAndStoreDocument (fingerprintOf : List Char → String) (st : RelState)
    (rawText : List Char) (fileName : String) (category : String)
    (subcategory : String) (failAt : Option Nat) : Except RelState (RelState × String) :=
  let text := cleanText rawText
  let fp := fingerprintOf text
  if st.contents.any (fun c => c.fingerprint == fp) then
    Except.ok (st, "skipped")
  else
    let cats1 :=
      if st.categories.any (fun c => likeEq c.name category) then st.categories
      else st.categories ++ [{ name := category, catGroup := "content",
                               description := "Auto-generated" }]
    let st1 := { st with categories := cats1 }
    if failAt = some 1 then Except.error st
    else
      let cats2 :=
        if st1.categories.any (fun c => likeEq c.name subcategory) then st1.categories
        else st1.categories ++ [{ name := subcategory, catGroup := "content",
                                  description := "Auto-generated subcategory" }]
      let st2 := { st1 with categories := cats2 }
      if failAt = some 2 then Except.error st1
      else
        let bizName := "Manual Upload Business"
        let bizs :=
          if st2.businesses.any (fun b => likeEq b.name bizName) then st2.businesses
          else st2.businesses ++ [{ name := bizName, industry := "General",
                                    description := "Placeholder business for manual uploads." }]
        let st3 := { st2 with businesses := bizs }
        if failAt = some 3 then Except.error st2
        else
          let content : ContentRec :=
            { title := fileName, text := text, category := category,
              subcategory := subcategory, fingerprint := fp }
          let link : LinkRec :=
            { category := category, subcategory := subcategory,
              business := bizName, fingerprint := fp }
          let st4 := { st3 with contents := st3.contents ++ [content],
                                links := st3.links ++ [link] }
          if failAt = some 4 then Except.error st3
          else Except.ok (st4, "success")

/-! ## Derived notions used by the statements -/

/-- A character list that the Text Normalizer leaves unchanged. -/
def IsCleanFixed (l : List Char) : Prop :=
  cleanText l = l

/-- The space-joined concatenation built by the buffer of
`merge_small_chunks`: Python starts from the empty string and appends
`" " + ch` for every fragment. -/
def joinSp (fs : List (List Char)) : List Char :=
  fs.foldl (fun a f => a ++ ' ' :: f) []

/-- A string produced by the small-chunk merge pass out of two or more
adjacent fragments, each nonblank and shorter than `min_chunk_len`. -/
def MergedSmall (minLen : Nat) (c : List Char) : Prop :=
  ∃ fs : List (List Char), 2 ≤ fs.length ∧
    (∀ f ∈ fs, f.length < minLen ∧ pyStrip f ≠ []) ∧
    c = pyStrip (joinSp fs)

/-- Invariant of every chunk dictionary emitted by the chunker: the string
`merge_small_chunks` would extract is the cleaned text, the cleaned text is
normalization-fixed, and its length is bounded by `max_chunk_len` unless the
chunk was assembled by the small-chunk merge from sub-minimum fragments. -/
def ChunkBodyInv (maxLen minLen : Nat) (c : ChunkV2) : Prop :=
  chunkExtract c = c.cleaned_text.getD [] ∧
  IsCleanFixed (c.cleaned_text.getD []) ∧
  ((c.cleaned_text.getD []).length ≤ maxLen ∨ MergedSmall minLen (c.cleaned_text.getD []))

/-- Status of the File Record with the given id. -/
def fileStatusOf (st : DbState) (fid : Nat) : Option FileStatus :=
  (st.files.find? (fun f => f.id == fid)).map (fun f => f.status)

/-- `total_chunks` of the File Record with the given id. -/
def totalChunksOf (st : DbState) (fid : Nat) : Option Nat :=
  (st.files.find? (fun f => f.id == fid)).map (fun f => f.total_chunks)

/-! ## Lemmas about the Text Normalizer -/

theorem cleanText_sublist (l : List Char) : List.Sublist (cleanText l) l :=
  (List.filter_sublist _).trans (List.filter_sublist _)

theorem cleanText_length_le (l : List Char) : (cleanText l).length ≤ l.length :=
  (cleanText_sublist l).length_le

theorem mem_cleanText {c : Char} {l : List Char} (h : c ∈ cleanText l) :
    c ∈ l ∧ c ≠ Char.ofNat 0 ∧ keepChar c = true := by
  unfold cleanText at h
  rcases List.mem_filter.mp h with ⟨h1, hkeep⟩
  rcases List.mem_filter.mp h1 with ⟨hl, hz⟩
  exact ⟨hl, by simpa using hz, hkeep⟩

theorem cleanText_eq_self_of {l : List Char}
    (h : ∀ c ∈ l, c ≠ Char.ofNat 0 ∧ keepChar c = true) : cleanText l = l := by
  have h1 : l.filter (fun c => c ≠ Char.ofNat 0) = l :=
    List.filter_eq_self.mpr (fun a ha => by simpa using (h a ha).1)
  have h2 : l.filter keepChar = l :=
    List.filter_eq_self.mpr (fun a ha => (h a ha).2)
  unfold cleanText
  rw [h1, h2]

theorem isCleanFixed_iff (l : List Char) :
    IsCleanFixed l ↔ ∀ c ∈ l, c ≠ Char.ofNat 0 ∧ keepChar c = true := by
  constructor
  · intro h c hc
    rw [IsCleanFixed] at h
    exact (mem_cleanText (h ▸ hc)).2
  · exact cleanText_eq_self_of

theorem cleanText_idem (l : List Char) : cleanText (cleanText l) = cleanText l :=
  cleanText_eq_self_of (fun _ hc => (mem_cleanText hc).2)

theorem isCleanFixed_cleanText (l : List Char) : IsCleanFixed (cleanText l) :=
  cleanText_idem l

theorem isCleanFixed_nil : IsCleanFixed ([] : List Char) := rfl

theorem isCleanFixed_subset {a b : List Char} (hsub : ∀ c ∈ a, c ∈ b)
    (hb : IsCleanFixed b) : IsCleanFixed a :=
  (isCleanFixed_iff a).mpr (fun c hc => (isCleanFixed_iff b).mp hb c (hsub c hc))

theorem isCleanFixed_append {a b : List Char} (ha : IsCleanFixed a)
    (hb : IsCleanFixed b) : IsCleanFixed (a ++ b) := by
  rw [isCleanFixed_iff] at ha hb ⊢
  intro c hc
  rcases List.mem_append.mp hc with h | h
  · exact ha c h
  · exact hb c h

theorem isCleanFixed_cons_space {a : List Char} (ha : IsCleanFixed a) :
    IsCleanFixed (' ' :: a) := by
  rw [isCleanFixed_iff] at ha ⊢
  intro c hc
  rcases List.mem_cons.mp hc with h | h
  · subst h; exact ⟨by decide, by decide⟩
  · exact ha c h

/-! ## Lemmas about `str.strip` -/

theorem mem_pyStrip {c : Char} {l : List Char} (h : c ∈ pyStrip l) : c ∈ l := by
  unfold pyStrip at h
  rw [List.mem_reverse] at h
  have h2 : c ∈ (l.dropWhile isPyWs).reverse :=
    (List.dropWhile_suffix _).sublist.subset h
  rw [List.mem_reverse] at h2
  exact (List.dropWhile_suffix _).sublist.subset h2

theorem isCleanFixed_pyStrip {l : List Char} (h : IsCleanFixed l) :
    IsCleanFixed (pyStrip l) :=
  isCleanFixed_subset (fun _ hc => mem_pyStrip hc) h

theorem pyStrip_length_le (l : List Char) : (pyStrip l).length ≤ l.length := by
  unfold pyStrip
  calc ((l.dropWhile isPyWs).reverse.dropWhile isPyWs).reverse.length
      = ((l.dropWhile isPyWs).reverse.dropWhile isPyWs).length := by
        rw [List.length_reverse]
    _ ≤ (l.dropWhile isPyWs).reverse.length := (List.dropWhile_suffix _).sublist.length_le
    _ = (l.dropWhile isPyWs).length := by rw [List.length_reverse]
    _ ≤ l.length := (List.dropWhile_suffix _).sublist.length_le

theorem pyStrip_nil : pyStrip ([] : List Char) = [] := rfl

theorem pyStrip_cons_ws {c : Char} (l : List Char) (h : isPyWs c = true) :
    pyStrip (c :: l) = pyStrip l := by
  unfold pyStrip
  rw [List.dropWhile_cons, if_pos h]

theorem head?_dropWhile_not {α : Type} (p : α → Bool) (l : List α) {a : α}
    (h : (l.dropWhile p).head? = some a) : p a = false := by
  induction l with
  | nil => simp at h
  | cons x t ih =>
    rw [List.dropWhile_cons] at h
    by_cases hx : p x = true
    · exact ih (by simpa [hx] using h)
    · rw [if_neg hx] at h
      simp at h
      rw [← h]
      simpa using hx

theorem dropWhile_eq_self_of_head {α : Type} (p : α → Bool) (l : List α)
    (h : ∀ a, l.head? = some a → p a = false) : l.dropWhile p = l := by
  cases l with
  | nil => rfl
  | cons x t =>
    rw [List.dropWhile_cons, if_neg]
    simp [h x rfl]

theorem getLast?_dropWhile {α : Type} (p : α → Bool) (l : List α)
    (h : l.dropWhile p ≠ []) : (l.dropWhile p).getLast? = l.getLast? := by
  rcases List.dropWhile_suffix (l := l) p with ⟨s, hs⟩
  conv_rhs => rw [← hs]
  exact (List.getLast?_append_of_ne_nil s h).symm

theorem pyStrip_head?_not_ws {l : List Char} {a : Char}
    (h : (pyStrip l).head? = some a) : isPyWs a = false := by
  unfold pyStrip at h
  rw [List.head?_reverse] at h
  have hne : (l.dropWhile isPyWs).reverse.dropWhile isPyWs ≠ [] := by
    intro hnil; rw [hnil] at h; simp at h
  rw [getLast?_dropWhile _ _ hne, List.getLast?_reverse] at h
  exact head?_dropWhile_not isPyWs l h

theorem pyStrip_getLast?_not_ws {l : List Char} {a : Char}
    (h : (pyStrip l).getLast? = some a) : isPyWs a = false := by
  unfold pyStrip at h
  rw [List.getLast?_reverse] at h
  exact head?_dropWhile_not isPyWs _ h

theorem pyStrip_eq_self_of {l : List Char}
    (hh : ∀ a, l.head? = some a → isPyWs a = false)
    (hl : ∀ a, l.getLast? = some a → isPyWs a = false) : pyStrip l = l := by
  unfold pyStrip
  rw [dropWhile_eq_self_of_head isPyWs l hh,
      dropWhile_eq_self_of_head isPyWs l.reverse
        (fun a ha => hl a (by rwa [List.head?_reverse] at ha)),
      List.reverse_reverse]

theorem pyStrip_idem (l : List Char) : pyStrip (pyStrip l) = pyStrip l :=
  pyStrip_eq_self_of (fun _ h => pyStrip_head?_not_ws h)
    (fun _ h => pyStrip_getLast?_not_ws h)

/-! ## Lemmas about the merge buffer shape -/

theorem joinSp_nil : joinSp [] = [] := rfl

theorem joinSp_singleton (f : List Char) : joinSp [f] = ' ' :: f := rfl

theorem joinSp_append_single (fs : List (List Char)) (f : List Char) :
    joinSp (fs ++ [f]) = joinSp fs ++ ' ' :: f := by
  unfold joinSp
  rw [List.foldl_append]
  rfl

theorem joinSp_ne_nil {fs : List (List Char)} (h : fs ≠ []) : joinSp fs ≠ [] := by
  induction fs using List.reverseRecOn with
  | nil => exact absurd rfl h
  | append_singleton gs g _ =>
    rw [joinSp_append_single]
    simp

theorem isCleanFixed_joinSp {fs : List (List Char)}
    (h : ∀ f ∈ fs, IsCleanFixed f) : IsCleanFixed (joinSp fs) := by
  induction fs using List.reverseRecOn with
  | nil => exact isCleanFixed_nil
  | append_singleton gs g ih =>
    rw [joinSp_append_single]
    exact isCleanFixed_append
      (ih (fun f hf => h f (List.mem_append_left _ hf)))
      (isCleanFixed_cons_space (h g (List.mem_append_right _ (List.mem_singleton_self g))))

theorem pyStrip_joinSp_single (f : List Char) :
    pyStrip (joinSp [f]) = pyStrip f := by
  rw [joinSp_singleton]
  exact pyStrip_cons_ws f (by decide)

/-! ## Lemmas about the sentence splitter -/

theorem splitSentencesGo_ne_nil :
    ∀ (l : List Char) (mode : Bool) (acc : List Char),
      splitSentencesGo mode acc l ≠ [] := by
  intro l
  induction l with
  | nil =>
    intro mode acc
    simp [splitSentencesGo]
  | cons c rest ih =>
    intro mode acc
    rw [splitSentencesGo]
    by_cases hm : mode = true
    · rw [if_pos hm]
      by_cases h1 : c = ' '
      · rw [if_pos h1]
        exact ih true acc
      · rw [if_neg h1]
        by_cases h2 : isSentencePunct c ∧ rest.head? = some ' '
        · rw [if_pos h2]
          simp
        · rw [if_neg h2]
          exact ih false (c :: acc)
    · rw [if_neg hm]
      by_cases h2 : isSentencePunct c ∧ rest.head? = some ' '
      · rw [if_pos h2]
        simp
      · rw [if_neg h2]
        exact ih false (c :: acc)

theorem splitSentencesGo_mem :
    ∀ (l : List Char) (mode : Bool) (acc : List Char),
      ∀ p ∈ splitSentencesGo mode acc l, ∀ c ∈ p, c ∈ acc ∨ c ∈ l := by
  intro l
  induction l with
  | nil =>
    intro mode acc p hp c hc
    simp [splitSentencesGo] at hp
    subst hp
    exact Or.inl (List.mem_reverse.mp hc)
  | cons ch rest ih =>
    intro mode acc p hp d hd
    have hsplit : p ∈ (acc.reverse ++ [ch]) :: splitSentencesGo true [] rest →
        d ∈ acc ∨ d ∈ ch :: rest := by
      intro hp2
      rcases List.mem_cons.mp hp2 with h | h
      · subst h
        rcases List.mem_append.mp hd with h1 | h1
        · exact Or.inl (List.mem_reverse.mp h1)
        · rw [List.mem_singleton] at h1
          subst h1
          exact Or.inr (List.mem_cons_self _ _)
      · rcases ih true [] p h d hd with h1 | h1
        · simp at h1
        · exact Or.inr (List.mem_cons_of_mem _ h1)
    have hkeep : p ∈ splitSentencesGo false (ch :: acc) rest →
        d ∈ acc ∨ d ∈ ch :: rest := by
      intro hp2
      rcases ih false (ch :: acc) p hp2 d hd with h1 | h1
      · rcases List.mem_cons.mp h1 with h2 | h2
        · subst h2
          exact Or.inr (List.mem_cons_self _ _)
        · exact Or.inl h2
      · exact Or.inr (List.mem_cons_of_mem _ h1)
    rw [splitSentencesGo] at hp
    by_cases hm : mode = true
    · rw [if_pos hm] at hp
      by_cases h1 : ch = ' '
      · rw [if_pos h1] at hp
        rcases ih true acc p hp d hd with h2 | h2
        · exact Or.inl h2
        · exact Or.inr (List.mem_cons_of_mem _ h2)
      · rw [if_neg h1] at hp
        by_cases h2 : isSentencePunct ch ∧ rest.head? = some ' '
        · rw [if_pos h2] at hp
          exact hsplit hp
        · rw [if_neg h2] at hp
          exact hkeep hp
    · rw [if_neg hm] at hp
      by_cases h2 : isSentencePunct ch ∧ rest.head? = some ' '
      · rw [if_pos h2] at hp
        exact hsplit hp
      · rw [if_neg h2] at hp
        exact hkeep hp

theorem splitSentencesGo_lenSum :
    ∀ (l : List Char) (mode : Bool) (acc : List Char),
      ((splitSentencesGo mode acc l).map List.length).sum
          + (splitSentencesGo mode acc l).length ≤ acc.length + l.length + 1 ∧
      (mode = true → l.head? = some ' ' →
        ((splitSentencesGo mode acc l).map List.length).sum
            + (splitSentencesGo mode acc l).length ≤ acc.length + l.length) := by
  intro l
  induction l with
  | nil =>
    intro mode acc
    constructor
    · simp [splitSentencesGo]
    · intro _ h
      simp at h
  | cons ch rest ih =>
    intro mode acc
    have hsplitB : isSentencePunct ch ∧ rest.head? = some ' ' →
        (((acc.reverse ++ [ch]) :: splitSentencesGo true [] rest).map List.length).sum
            + ((acc.reverse ++ [ch]) :: splitSentencesGo true [] rest).length
          ≤ acc.length + (ch :: rest).length + 1 := by
      intro h2
      have htail := (ih true []).2 rfl h2.2
      simp only [List.map_cons, List.sum_cons, List.length_cons, List.length_append,
        List.length_reverse, List.length_singleton, List.length_nil] at htail ⊢
      omega
    have hkeepB :
        ((splitSentencesGo false (ch :: acc) rest).map List.length).sum
            + (splitSentencesGo false (ch :: acc) rest).length
          ≤ acc.length + (ch :: rest).length + 1 := by
      have htail := (ih false (ch :: acc)).1
      simp only [List.length_cons] at htail ⊢
      omega
    constructor
    · rw [splitSentencesGo]
      by_cases hm : mode = true
      · rw [if_pos hm]
        by_cases h1 : ch = ' '
        · rw [if_pos h1]
          have htail := (ih true acc).1
          simp only [List.length_cons]
          omega
        · rw [if_neg h1]
          by_cases h2 : isSentencePunct ch ∧ rest.head? = some ' '
          · rw [if_pos h2]
            exact hsplitB h2
          · rw [if_neg h2]
            exact hkeepB
      · rw [if_neg hm]
        by_cases h2 : isSentencePunct ch ∧ rest.head? = some ' '
        · rw [if_pos h2]
          exact hsplitB h2
        · rw [if_neg h2]
          exact hkeepB
    · intro hm hh
      simp only [List.head?_cons, Option.some_inj] at hh
      rw [splitSentencesGo, if_pos hm, if_pos hh]
      have htail := (ih true acc).1
      simp only [List.length_cons]
      omega

theorem splitSentences_piece_lt {l : List Char}
    (h2 : 2 ≤ (splitSentences l).length) :
    ∀ p ∈ splitSentences l, p.length < l.length := by
  intro p hp
  have hsum := (splitSentencesGo_lenSum l false []).1
  have hple : p.length ≤ ((splitSentencesGo false [] l).map List.length).sum :=
    List.le_sum_of_mem (List.mem_map_of_mem List.length hp)
  unfold splitSentences at hp h2
  simp only [List.length_nil] at hsum
  omega

/-! ## Lemmas about the sentence accumulation loop -/

theorem accGo_cleanFixed (maxLen : Nat) :
    ∀ (sents : List (List Char)) (cur : List Char), IsCleanFixed cur →
      (∀ s ∈ sents, IsCleanFixed s) →
      ∀ ch ∈ accGo maxLen cur sents, IsCleanFixed ch := by
  intro sents
  induction sents with
  | nil =>
    intro cur hcur _ ch hch
    unfold accGo at hch
    by_cases hc : cur = []
    · simp [hc] at hch
    · rw [if_neg hc] at hch
      rw [List.mem_singleton] at hch
      subst hch
      exact isCleanFixed_pyStrip hcur
  | cons s rest ih =>
    intro cur hcur hsents ch hch
    unfold accGo at hch
    by_cases hlt : cur.length + s.length < maxLen
    · rw [if_pos hlt] at hch
      exact ih (cur ++ ' ' :: s)
        (isCleanFixed_append hcur
          (isCleanFixed_cons_space (hsents s (List.mem_cons_self _ _))))
        (fun t ht => hsents t (List.mem_cons_of_mem _ ht)) ch hch
    · rw [if_neg hlt] at hch
      rcases List.mem_cons.mp hch with h | h
      · subst h
        exact isCleanFixed_pyStrip hcur
      · exact ih s (hsents s (List.mem_cons_self _ _))
          (fun t ht => hsents t (List.mem_cons_of_mem _ ht)) ch h

theorem accGo_origin (maxLen : Nat) (S : List (List Char)) :
    ∀ (sents : List (List Char)) (cur : List Char),
      (cur.length ≤ maxLen ∨ ∃ s ∈ S, cur = s) →
      (∀ s ∈ sents, s ∈ S) →
      ∀ ch ∈ accGo maxLen cur sents,
        ch.length ≤ maxLen ∨ ∃ s ∈ S, ch = pyStrip s := by
  intro sents
  induction sents with
  | nil =>
    intro cur hcur _ ch hch
    unfold accGo at hch
    by_cases hc : cur = []
    · simp [hc] at hch
    · rw [if_neg hc, List.mem_singleton] at hch
      subst hch
      rcases hcur with h | ⟨t, ht, heq⟩
      · exact Or.inl (le_trans (pyStrip_length_le cur) h)
      · exact Or.inr ⟨t, ht, by rw [heq]⟩
  | cons s rest ih =>
    intro cur hcur hsents ch hch
    unfold accGo at hch
    by_cases hlt : cur.length + s.length < maxLen
    · rw [if_pos hlt] at hch
      refine ih (cur ++ ' ' :: s) (Or.inl ?_)
        (fun t ht => hsents t (List.mem_cons_of_mem _ ht)) ch hch
      simp only [List.length_append, List.length_cons]
      omega
    · rw [if_neg hlt] at hch
      rcases List.mem_cons.mp hch with h | h
      · subst h
        rcases hcur with h1 | ⟨t, ht, heq⟩
        · exact Or.inl (le_trans (pyStrip_length_le cur) h1)
        · exact Or.inr ⟨t, ht, by rw [heq]⟩
      · exact ih s (Or.inr ⟨s, hsents s (List.mem_cons_self _ _), rfl⟩)
          (fun t ht => hsents t (List.mem_cons_of_mem _ ht)) ch h

/-! ## Lemmas about the small-chunk merge -/

theorem mergedFlush_ok (maxLen minLen : Nat) (fs : List (List Char)) (hne : fs ≠ [])
    (hfs : ∀ f ∈ fs, f.length < minLen ∧ pyStrip f ≠ [] ∧ IsCleanFixed f ∧
      (f.length ≤ maxLen ∨ MergedSmall minLen f)) :
    IsCleanFixed (pyStrip (joinSp fs)) ∧
      ((pyStrip (joinSp fs)).length ≤ maxLen ∨ MergedSmall minLen (pyStrip (joinSp fs))) := by
  have hcf : IsCleanFixed (pyStrip (joinSp fs)) :=
    isCleanFixed_pyStrip (isCleanFixed_joinSp (fun f hf => (hfs f hf).2.2.1))
  refine ⟨hcf, ?_⟩
  cases fs with
  | nil => exact absurd rfl hne
  | cons f rest =>
    cases rest with
    | nil =>
      rw [pyStrip_joinSp_single]
      rcases (hfs f (List.mem_singleton_self f)).2.2.2 with hb | hmo
      · exact Or.inl (le_trans (pyStrip_length_le f) hb)
      · right
        rcases hmo with ⟨gs, hgs2, hgsp, hgeq⟩
        refine ⟨gs, hgs2, hgsp, ?_⟩
        rw [hgeq, pyStrip_idem]
    | cons f2 fs2 =>
      right
      exact ⟨f :: f2 :: fs2, by simp,
        fun g hg => ⟨(hfs g hg).1, (hfs g hg).2.1⟩, rfl⟩

theorem mergeGo_inv (maxLen minLen : Nat) :
    ∀ (l fs : List (List Char)),
      (∀ f ∈ fs, f.length < minLen ∧ pyStrip f ≠ [] ∧ IsCleanFixed f ∧
        (f.length ≤ maxLen ∨ MergedSmall minLen f)) →
      (∀ r ∈ l, IsCleanFixed r ∧ (r.length ≤ maxLen ∨ MergedSmall minLen r)) →
      ∀ m ∈ mergeGo minLen (joinSp fs) l,
        IsCleanFixed m ∧ (m.length ≤ maxLen ∨ MergedSmall minLen m) := by
  intro l
  induction l with
  | nil =>
    intro fs hfs _ m hm
    unfold mergeGo at hm
    by_cases hb : joinSp fs = []
    · rw [if_pos hb] at hm
      simp at hm
    · rw [if_neg hb, List.mem_singleton] at hm
      subst hm
      have hne : fs ≠ [] := by
        intro h
        exact hb (h ▸ joinSp_nil)
      exact mergedFlush_ok maxLen minLen fs hne hfs
  | cons ch rest ih =>
    intro fs hfs hl m hm
    unfold mergeGo at hm
    by_cases h1 : pyStrip ch = []
    · rw [if_pos h1] at hm
      exact ih fs hfs (fun r hr => hl r (List.mem_cons_of_mem _ hr)) m hm
    · rw [if_neg h1] at hm
      by_cases h2 : ch.length < minLen
      · rw [if_pos h2, ← joinSp_append_single] at hm
        refine ih (fs ++ [ch]) ?_ (fun r hr => hl r (List.mem_cons_of_mem _ hr)) m hm
        intro f hf
        rcases List.mem_append.mp hf with h | h
        · exact hfs f h
        · rw [List.mem_singleton] at h
          subst h
          exact ⟨h2, h1, (hl _ (List.mem_cons_self _ _)).1,
            (hl _ (List.mem_cons_self _ _)).2⟩
      · rw [if_neg h2] at hm
        by_cases h3 : joinSp fs = []
        · rw [if_pos h3] at hm
          rcases List.mem_cons.mp hm with h | h
          · subst h
            exact hl _ (List.mem_cons_self _ _)
          · exact ih [] (by intro f hf; simp at hf)
              (fun r hr => hl r (List.mem_cons_of_mem _ hr)) m h
        · rw [if_neg h3] at hm
          have hne : fs ≠ [] := by
            intro h
            exact h3 (h ▸ joinSp_nil)
          rcases List.mem_cons.mp hm with h | h
          · subst h
            exact mergedFlush_ok maxLen minLen fs hne hfs
          · rcases List.mem_cons.mp h with h4 | h4
            · subst h4
              exact hl _ (List.mem_cons_self _ _)
            · exact ih [] (by intro f hf; simp at hf)
                (fun r hr => hl r (List.mem_cons_of_mem _ hr)) m h4

theorem mergeSmallChunks_inv (maxLen minLen : Nat) (l : List (List Char))
    (hl : ∀ r ∈ l, IsCleanFixed r ∧ (r.length ≤ maxLen ∨ MergedSmall minLen r)) :
    ∀ m ∈ mergeSmallChunks l minLen,
      IsCleanFixed m ∧ (m.length ≤ maxLen ∨ MergedSmall minLen m) :=
  mergeGo_inv maxLen minLen l [] (by intro f hf; simp at hf) hl

/-! ## Lemmas about the refinement loop and the chunk builder -/

theorem chunkBodyInv_makeChunkDict (shash : List Char → String) (maxLen minLen : Nat)
    {m : List Char} (hcf : IsCleanFixed m)
    (hb : m.length ≤ maxLen ∨ MergedSmall minLen m) :
    ChunkBodyInv maxLen minLen (makeChunkDict shash m) := by
  have hcf2 : cleanText m = m := hcf
  unfold makeChunkDict ChunkBodyInv
  by_cases hs : pyStrip (cleanText m) = []
  · rw [if_pos hs]
    exact ⟨rfl, isCleanFixed_nil, Or.inl (Nat.zero_le _)⟩
  · rw [if_neg hs]
    have hme : m ≠ [] := by
      intro h
      rw [h] at hs
      exact hs rfl
    simp only [hcf2, Option.getD_some]
    refine ⟨?_, hcf, hb⟩
    unfold chunkExtract
    simp only [hcf2]
    rw [if_neg hme]

theorem refineWith_inv (F : List Char → Option (List ChunkV2)) (maxLen minLen : Nat) :
    ∀ (l : List (List Char)) (refined : List (List Char)),
      (∀ ch ∈ l, IsCleanFixed ch) →
      (∀ ch ∈ l, maxLen < ch.length → ∀ sub, F ch = some sub →
        ∀ c ∈ sub, ChunkBodyInv maxLen minLen c) →
      refineWith F maxLen l = some refined →
      ∀ r ∈ refined, IsCleanFixed r ∧ (r.length ≤ maxLen ∨ MergedSmall minLen r) := by
  intro l
  induction l with
  | nil =>
    intro refined _ _ h r hr
    unfold refineWith at h
    rw [Option.some_inj] at h
    subst h
    simp at hr
  | cons ch rest ih =>
    intro refined hcf hsub h r hr
    unfold refineWith at h
    by_cases hlen : maxLen < ch.length
    · rw [if_pos hlen] at h
      cases hF : F ch with
      | none => rw [hF] at h; simp at h
      | some sub =>
        cases hR : refineWith F maxLen rest with
        | none => rw [hF, hR] at h; simp at h
        | some r2 =>
          rw [hF, hR, Option.some_inj] at h
          subst h
          rcases List.mem_append.mp hr with hmem | hmem
          · rcases List.mem_map.mp hmem with ⟨c, hc, hceq⟩
            have hinv := hsub ch (List.mem_cons_self _ _) hlen sub hF c hc
            rcases hinv with ⟨he, hcfc, hbc⟩
            subst hceq
            rw [he]
            exact ⟨hcfc, hbc⟩
          · exact ih r2 (fun t ht => hcf t (List.mem_cons_of_mem _ ht))
              (fun t ht h1 sub1 h2 => hsub t (List.mem_cons_of_mem _ ht) h1 sub1 h2)
              hR r hmem
    · rw [if_neg hlen] at h
      cases hR : refineWith F maxLen rest with
      | none => rw [hR] at h; simp at h
      | some r2 =>
        rw [hR, Option.some_inj] at h
        subst h
        rcases List.mem_cons.mp hr with hmem | hmem
        · subst hmem
          exact ⟨hcf _ (List.mem_cons_self _ _), Or.inl (Nat.le_of_not_lt hlen)⟩
        · exact ih r2 (fun t ht => hcf t (List.mem_cons_of_mem _ ht))
            (fun t ht h1 sub1 h2 => hsub t (List.mem_cons_of_mem _ ht) h1 sub1 h2)
            hR r hmem

/-! ## Main invariant of the recursive chunker -/

theorem rsc_chunkBodyInv (shash : List Char → String) :
    ∀ (fuel : Nat) (text : List Char) (cs : List ChunkV2),
      rscFuel shash fuel text 600 150 = some cs →
      ∀ c ∈ cs, ChunkBodyInv 600 150 c := by
  intro fuel
  induction fuel with
  | zero =>
    intro text cs h
    exact absurd h (by simp [rscFuel])
  | succ n ih =>
    intro text cs h
    rw [rscFuel] at h
    by_cases h1 : pyStrip (cleanText text) = []
    · rw [if_pos h1, Option.some_inj] at h
      subst h
      intro c hc
      simp at hc
    · rw [if_neg h1] at h
      by_cases h2 : (cleanText text).length ≤ 600
      · rw [if_pos h2, Option.some_inj] at h
        subst h
        intro c hc
        rw [List.mem_singleton] at hc
        subst hc
        exact chunkBodyInv_makeChunkDict shash 600 150 (isCleanFixed_cleanText text)
          (Or.inl h2)
      · rw [if_neg h2] at h
        by_cases h3 : (splitSentences (cleanText text)).length = 1
        · rw [if_pos h3] at h
          cases e1 : rscFuel shash n ((cleanText text).take ((cleanText text).length / 2))
              600 150 with
          | none =>
            rw [e1] at h
            simp at h
          | some ls =>
            cases e2 : rscFuel shash n ((cleanText text).drop ((cleanText text).length / 2))
                600 150 with
            | none =>
              rw [e1, e2] at h
              simp at h
            | some rs =>
              rw [e1, e2, Option.some_inj] at h
              subst h
              intro c hc
              rcases List.mem_append.mp hc with hm | hm
              · exact ih _ ls e1 c hm
              · exact ih _ rs e2 c hm
        · rw [if_neg h3] at h
          cases er : refineWith (fun ch => rscFuel shash n ch 600 150) 600
              (accChunks 600 (splitSentences (cleanText text))) with
          | none =>
            rw [er] at h
            simp at h
          | some refined =>
            rw [er, Option.some_inj] at h
            subst h
            intro c hc
            rcases List.mem_map.mp hc with ⟨mch, hm, hmeq⟩
            subst hmeq
            have hsentsCF : ∀ s ∈ splitSentences (cleanText text), IsCleanFixed s := by
              intro s hs
              refine isCleanFixed_subset ?_ (isCleanFixed_cleanText text)
              intro d hd
              rcases splitSentencesGo_mem (cleanText text) false [] s hs d hd with hx | hx
              · simp at hx
              · exact hx
            have haccCF : ∀ ch2 ∈ accChunks 600 (splitSentences (cleanText text)),
                IsCleanFixed ch2 :=
              accGo_cleanFixed 600 _ [] isCleanFixed_nil hsentsCF
            have hrefInv := refineWith_inv _ 600 150 _ refined haccCF
              (fun ch2 _ _ sub hsub2 c2 hc2 => ih ch2 sub hsub2 c2 hc2) er
            have hmergeInv := mergeSmallChunks_inv 600 150 refined hrefInv mch hm
            exact chunkBodyInv_makeChunkDict shash 600 150 hmergeInv.1 hmergeInv.2

/-! ## Termination of the chunker -/

theorem refineWith_isSome (F : List Char → Option (List ChunkV2)) (maxLen : Nat) :
    ∀ l : List (List Char),
      (∀ ch ∈ l, maxLen < ch.length → (F ch).isSome) →
      (refineWith F maxLen l).isSome := by
  intro l
  induction l with
  | nil =>
    intro _
    simp [refineWith]
  | cons ch rest ih =>
    intro hl
    unfold refineWith
    have h2 := ih (fun t ht h => hl t (List.mem_cons_of_mem _ ht) h)
    by_cases hlen : maxLen < ch.length
    · rw [if_pos hlen]
      have h1 := hl ch (List.mem_cons_self _ _) hlen
      cases hF : F ch with
      | none =>
        rw [hF] at h1
        simp at h1
      | some sub =>
        cases hR : refineWith F maxLen rest with
        | none =>
          rw [hR] at h2
          simp at h2
        | some r =>
          simp
    · rw [if_neg hlen]
      cases hR : refineWith F maxLen rest with
      | none =>
        rw [hR] at h2
        simp at h2
      | some r =>
        simp

theorem rsc_isSome_of_lt (shash : List Char → String) (n : Nat) :
    ∀ text : List Char, text.length < n → (rscFuel shash n text 600 150).isSome := by
  induction n using Nat.strong_induction_on with
  | _ n ih =>
    intro text hlt
    cases n with
    | zero => exact absurd hlt (Nat.not_lt_zero _)
    | succ m =>
      rw [rscFuel]
      by_cases h1 : pyStrip (cleanText text) = []
      · rw [if_pos h1]
        simp
      · rw [if_neg h1]
        by_cases h2 : (cleanText text).length ≤ 600
        · rw [if_pos h2]
          simp
        · rw [if_neg h2]
          have hclen : (cleanText text).length ≤ text.length := cleanText_length_le text
          have hgt : 600 < (cleanText text).length := Nat.lt_of_not_le h2
          by_cases h3 : (splitSentences (cleanText text)).length = 1
          · rw [if_pos h3]
            have htake : ((cleanText text).take ((cleanText text).length / 2)).length < m := by
              rw [List.length_take]
              omega
            have hdrop : ((cleanText text).drop ((cleanText text).length / 2)).length < m := by
              rw [List.length_drop]
              omega
            have s1 := ih m (Nat.lt_succ_self m) _ htake
            have s2 := ih m (Nat.lt_succ_self m) _ hdrop
            cases e1 : rscFuel shash m ((cleanText text).take ((cleanText text).length / 2))
                600 150 with
            | none =>
              rw [e1] at s1
              simp at s1
            | some ls =>
              cases e2 : rscFuel shash m ((cleanText text).drop ((cleanText text).length / 2))
                  600 150 with
              | none =>
                rw [e2] at s2
                simp at s2
              | some rs =>
                simp
          · rw [if_neg h3]
            have h0 : 0 < (splitSentences (cleanText text)).length :=
              List.length_pos.mpr (splitSentencesGo_ne_nil _ false [])
            have hs2 : 2 ≤ (splitSentences (cleanText text)).length := by omega
            have hrefSome := refineWith_isSome (fun ch => rscFuel shash m ch 600 150) 600
              (accChunks 600 (splitSentences (cleanText text))) ?hsub
            case hsub =>
              intro ch hch hlen2
              rcases accGo_origin 600 (splitSentences (cleanText text))
                  (splitSentences (cleanText text)) [] (Or.inl (by simp))
                  (fun s hs => hs) ch hch with hb | ⟨s, hs, heq⟩
              · omega
              · have hslen := splitSentences_piece_lt hs2 s hs
                have hplen : (pyStrip s).length ≤ s.length := pyStrip_length_le s
                refine ih m (Nat.lt_succ_self m) ch ?_
                rw [heq]
                omega
            cases er : refineWith (fun ch => rscFuel shash m ch 600 150) 600
                (accChunks 600 (splitSentences (cleanText text))) with
            | none =>
              rw [er] at hrefSome
              simp at hrefSome
            | some refined =>
              simp

theorem rscFuel_isSome_general (shash : List Char → String) (text : List Char)
    (maxLen minLen : Nat) :
    (rscFuel shash (text.length + 2) text maxLen minLen).isSome := by
  have hfe : text.length + 2 = (text.length + 1) + 1 := rfl
  rw [hfe, rscFuel]
  by_cases h1 : pyStrip (cleanText text) = []
  · rw [if_pos h1]
    simp
  · rw [if_neg h1]
    by_cases h2 : (cleanText text).length ≤ maxLen
    · rw [if_pos h2]
      simp
    · rw [if_neg h2]
      have hclen : (cleanText text).length ≤ text.length := cleanText_length_le text
      by_cases h3 : (splitSentences (cleanText text)).length = 1
      · rw [if_pos h3]
        have htake : ((cleanText text).take ((cleanText text).length / 2)).length
            < text.length + 1 := by
          rw [List.length_take]
          omega
        have hdrop : ((cleanText text).drop ((cleanText text).length / 2)).length
            < text.length + 1 := by
          rw [List.length_drop]
          omega
        have s1 := rsc_isSome_of_lt shash (text.length + 1) _ htake
        have s2 := rsc_isSome_of_lt shash (text.length + 1) _ hdrop
        cases e1 : rscFuel shash (text.length + 1)
            ((cleanText text).take ((cleanText text).length / 2)) 600 150 with
        | none =>
          rw [e1] at s1
          simp at s1
        | some ls =>
          cases e2 : rscFuel shash (text.length + 1)
              ((cleanText text).drop ((cleanText text).length / 2)) 600 150 with
          | none =>
            rw [e2] at s2
            simp at s2
          | some rs =>
            simp
      · rw [if_neg h3]
        have h0 : 0 < (splitSentences (cleanText text)).length :=
          List.length_pos.mpr (splitSentencesGo_ne_nil _ false [])
        have hs2 : 2 ≤ (splitSentences (cleanText text)).length := by omega
        have hrefSome := refineWith_isSome (fun ch => rscFuel shash (text.length + 1) ch 600 150)
          maxLen (accChunks maxLen (splitSentences (cleanText text))) ?hsub
        case hsub =>
          intro ch hch hlen2
          rcases accGo_origin maxLen (splitSentences (cleanText text))
              (splitSentences (cleanText text)) [] (Or.inl (by simp))
              (fun s hs => hs) ch hch with hb | ⟨s, hs, heq⟩
          · omega
          · have hslen := splitSentences_piece_lt hs2 s hs
            have hplen : (pyStrip s).length ≤ s.length := pyStrip_length_le s
            refine rsc_isSome_of_lt shash (text.length + 1) ch ?_
            rw [heq]
            omega
        cases er : refineWith (fun ch => rscFuel shash (text.length + 1) ch 600 150) maxLen
            (accChunks maxLen (splitSentences (cleanText text))) with
        | none =>
          rw [er] at hrefSome
          simp at hrefSome
        | some refined =>
          simp

/-! ## Claim C3 -/

/-- C3 (amended): at the default parameters `max_chunk_len = 600`,
`min_chunk_len = 150` — to which the source's recursive calls always revert,
since they omit both parameters — every chunk emitted by
`recursive_semantic_chunk` has cleaned length at most `max_chunk_len` unless
the final small-chunk merge pass assembled it from two or more adjacent
nonblank fragments each shorter than `min_chunk_len` (such merged chunks can
exceed the bound); and a text whose cleaned form has length exactly
`max_chunk_len` and is not blank is returned as a single unsplit chunk, for
every parameter pair.  The claim as stated is refuted by
the counterexample theorem: a single token longer than the bound is split at
its midpoint, never emitted unsplit, and a merged chunk can exceed the
bound. -/
theorem claim3_chunk_size_bound_amended :
    (∀ (shash : List Char → String) (fuel : Nat) (text : List Char)
        (cs : List ChunkV2),
      rscFuel shash fuel text 600 150 = some cs →
      ∀ c ∈ cs, (c.cleaned_text.getD []).length ≤ 600 ∨
        MergedSmall 150 (c.cleaned_text.getD [])) ∧
    (∀ (shash : List Char → String) (fuel : Nat) (text : List Char)
        (maxLen minLen : Nat),
      (cleanText text).length = maxLen →
      pyStrip (cleanText text) ≠ [] →
      rscFuel shash (fuel + 1) text maxLen minLen
          = some [makeChunkDict shash (cleanText text)] ∧
        (makeChunkDict shash (cleanText text)).cleaned_text
          = some (cleanText text)) := by
  constructor
  · intro shash fuel text cs h c hc
    exact (rsc_chunkBodyInv shash fuel text cs h c hc).2.2
  · intro shash fuel text maxLen minLen hlen hne
    constructor
    · rw [rscFuel, if_neg hne, if_pos (le_of_eq hlen)]
    · unfold makeChunkDict
      rw [cleanText_idem, if_neg hne]

/-- C3 counterexample: with `max_chunk_len = 10`, `min_chunk_len = 5`, the
23-character input below is chunked into a single merged chunk of cleaned
length 11 > 10 that consists of 4 tokens, so it is not the permitted
single-oversized-token exception; and with the default parameters a single
token of 601 repeated letters — longer than `max_chunk_len = 600` — is not
emitted unsplit but split into two chunks of lengths 300 and 301. -/
theorem claim3_counterexample :
    ((rscFuel (fun _ => "h") 30 "\t\t\t\t\t\ta. b. \t\t\t\t\t\tc. d.".toList 10 5).map
        (fun cs => cs.map (fun c => ((c.cleaned_text.getD []).length, c.tokens.getD 0)))
      = some [(11, 4)]) ∧
    10 < 11 ∧
    ((rscFuel (fun _ => "h") 700 (List.replicate 601 'a') 600 150).map
        (fun cs => cs.map (fun c => (c.cleaned_text.getD []).length))
      = some [300, 301]) ∧
    countTokens (List.replicate 601 'a') = 1 :=
  ⟨by decide, by decide, by decide, by decide⟩

/-- Witness for the amended C3 theorem at concrete inputs: the single chunk
produced for `"hello."` satisfies the bound, and a 600-character text is
returned as one unsplit chunk. -/
theorem claim3_witness :
    (((makeChunkDict (fun _ => "h") (cleanText "hello.".toList)).cleaned_text.getD
        []).length ≤ 600 ∨
      MergedSmall 150
        ((makeChunkDict (fun _ => "h") (cleanText "hello.".toList)).cleaned_text.getD [])) ∧
    (rscFuel (fun _ => "h") 1 (List.replicate 600 'a') 600 150
        = some [makeChunkDict (fun _ => "h") (cleanText (List.replicate 600 'a'))] ∧
      (makeChunkDict (fun _ => "h") (cleanText (List.replicate 600 'a'))).cleaned_text
        = some (cleanText (List.replicate 600 'a'))) := by
  constructor
  · exact claim3_chunk_size_bound_amended.1 (fun _ => "h") 2 "hello.".toList
      [makeChunkDict (fun _ => "h") (cleanText "hello.".toList)] (by decide)
      (makeChunkDict (fun _ => "h") (cleanText "hello.".toList))
      (List.mem_singleton_self _)
  · exact claim3_chunk_size_bound_amended.2 (fun _ => "h") 0 (List.replicate 600 'a')
      600 150 (by decide) (by decide)

/-! ## Claim C9 -/

/-- C9: `recursive_semantic_chunk` terminates for every finite input text
and every parameter pair: the fuel-indexed embedding always returns a result
within `length + 2` nested levels, because the midpoint halving and the
sentence pieces are strictly shorter than the text at every level (and a
length-1 remainder is absorbed by the default bound at the next level). -/
theorem claim9_chunker_terminates (shash : List Char → String) (text : List Char)
    (maxLen minLen : Nat) :
    (rscFuel shash (text.length + 2) text maxLen minLen).isSome :=
  rscFuel_isSome_general shash text maxLen minLen

/-! ## Claim C2 -/

/-- C2: the Global Content Index transaction of `make_chunk_dict` increments
`occurrence_count` unconditionally after the conflict-free insert, so the
very first ingestion of a fresh semantic hash leaves `occurrence_count = 2`
(insert with 1, then increment), not 1, and a second ingestion leaves 3, not
2 — contradicting the claim and the spec invariant that the count equals the
number of referencing Chunk Records. -/
theorem claim2_gci_occurrence_overcount :
    occOf (gciUpsert [] 0 "h" ['q'] 7) "h" = some 2 ∧
    occOf (gciUpsert (gciUpsert [] 0 "h" ['q'] 7) 1 "h" ['q'] 8) "h" = some 3 ∧
    (2 : Nat) ≠ 1 ∧ (3 : Nat) ≠ 2 :=
  ⟨by decide, by decide, by decide, by decide⟩

/-! ## Claim C4 -/

/-- C4 (amended): when chunk extraction yields zero chunks, `_run_pipeline`
returns without touching the store, so the File Record keeps its prior
status instead of being set to `processed`; only when the extracted batch is
nonempty and chunk deduplication removes every chunk is the File Record set
to terminal status `processed` with `total_chunks = 0`. -/
theorem claim4_zero_chunk_statuses :
    (∀ (st : DbState) (fid : Nat) (chunks : List ChunkV2),
      chunks = [] → runPipeline st fid chunks = st) ∧
    (∀ (st : DbState) (fid : Nat) (chunks : List ChunkV2),
      chunks ≠ [] → dedupChunks st chunks fid = [] →
      runPipeline st fid chunks = updateFileStatus st fid 0 FileStatus.processed) := by
  constructor
  · intro st fid chunks h
    subst h
    rfl
  · intro st fid chunks h1 h2
    unfold runPipeline
    rw [if_neg (by simp [List.isEmpty_iff, h1]), h2]
    rw [if_pos (by simp)]

/-- C4 counterexample: an empty extraction (as produced by an empty file)
leaves the File Record in its prior status `uploaded`; it is not set to
`processed`. -/
theorem claim4_counterexample :
    extractChunksModel (fun _ => "h") (fun _ => []) [] = [] ∧
    runPipeline ⟨[⟨1, none, FileStatus.uploaded, 0, true⟩], [], [], []⟩ 1 []
      = ⟨[⟨1, none, FileStatus.uploaded, 0, true⟩], [], [], []⟩ ∧
    fileStatusOf ⟨[⟨1, none, FileStatus.uploaded, 0, true⟩], [], [], []⟩ 1
      = some FileStatus.uploaded ∧
    FileStatus.uploaded ≠ FileStatus.processed :=
  ⟨by decide, by decide, by decide, by decide⟩

/-- Witness for the amended C4 theorem: the empty batch leaves a concrete
state unchanged, and a batch whose only chunk is already recorded for the
same file ends in `processed` with zero chunks. -/
theorem claim4_witness :
    runPipeline ⟨[⟨1, none, FileStatus.uploaded, 0, true⟩], [], [], []⟩ 1 []
      = ⟨[⟨1, none, FileStatus.uploaded, 0, true⟩], [], [], []⟩ ∧
    runPipeline ⟨[⟨7, none, FileStatus.uploaded, 0, true⟩],
          [⟨7, 0, some ['x'], some "h"⟩], [], []⟩ 7
        [⟨some ['x'], some ['x'], some 1, some "h"⟩]
      = updateFileStatus ⟨[⟨7, none, FileStatus.uploaded, 0, true⟩],
          [⟨7, 0, some ['x'], some "h"⟩], [], []⟩ 7 0 FileStatus.processed := by
  constructor
  · exact claim4_zero_chunk_statuses.1 _ 1 [] rfl
  · exact claim4_zero_chunk_statuses.2 _ 7 _ (by decide) (by decide)

/-! ## Claim C5 -/

theorem filter_and_eq {α : Type} (p q : α → Bool) :
    ∀ cs : List α, cs.filter (fun r => p r && q r) = (cs.filter p).filter q := by
  intro cs
  induction cs with
  | nil => rfl
  | cons a t ih =>
    by_cases hp : p a = true
    · by_cases hq : q a = true
      · simp [hp, hq, ih]
      · simp [hp, hq, ih]
    · simp [hp, ih]

/-- C5: chunk-level deduplication is scoped to a single file.  A chunk whose
semantic hash is carried by no Chunk Record of the same file is retained,
one whose hash is already recorded for the same file is removed (first
conjunct, an equivalence), and the result only depends on the Chunk Records
of that file — rows of other files and the Global Content Index are
irrelevant (second conjunct). -/
theorem contains_eq_of_mem_iff {E1 E2 : List String} (h : String)
    (hiff : h ∈ E1 ↔ h ∈ E2) : E1.contains h = E2.contains h := by
  cases h1 : E1.contains h with
  | false =>
    cases h2 : E2.contains h with
    | false => rfl
    | true =>
      have h3 : E1.contains h = true := List.elem_iff.mpr (hiff.mpr (List.elem_iff.mp h2))
      rw [h1] at h3
      exact absurd h3 (by simp)
  | true =>
    cases h2 : E2.contains h with
    | false =>
      have h3 : E2.contains h = true := List.elem_iff.mpr (hiff.mp (List.elem_iff.mp h1))
      rw [h2] at h3
      exact absurd h3 (by simp)
    | true => rfl

theorem mem_dedup_existing_iff (st : DbState) (chunks : List ChunkV2) (fid : Nat)
    (h : String) :
    (h ∈ (st.contents.filter (fun r =>
        decide (r.file_id = fid) &&
          match r.semantic_hash with
          | some h2 => (chunks.filterMap (fun c => c.semantic_hash)).contains h2
          | none => false)).filterMap (fun r => r.semantic_hash)) ↔
      ∃ r, r ∈ st.contents ∧ r.file_id = fid ∧ r.semantic_hash = some h ∧
        (chunks.filterMap (fun c => c.semantic_hash)).contains h = true := by
  rw [List.mem_filterMap]
  constructor
  · rintro ⟨r, hrf, hrh⟩
    rw [List.mem_filter] at hrf
    rcases hrf with ⟨hrmem, hq⟩
    rw [Bool.and_eq_true] at hq
    rcases hq with ⟨hfid, hcont⟩
    rw [decide_eq_true_eq] at hfid
    rw [hrh] at hcont
    exact ⟨r, hrmem, hfid, hrh, hcont⟩
  · rintro ⟨r, hrmem, hfid, hrh, hcont⟩
    refine ⟨r, List.mem_filter.mpr ⟨hrmem, ?_⟩, hrh⟩
    rw [Bool.and_eq_true]
    refine ⟨by rw [decide_eq_true_eq]; exact hfid, ?_⟩
    rw [hrh]
    exact hcont

/-- C5: chunk-level deduplication is scoped to a single file.  A chunk whose
semantic hash is carried by some Chunk Record of the same file is removed
and one whose hash is carried by no Chunk Record of the same file is
retained (first conjunct, an equivalence); and the result depends only on
the Chunk Records of that file, so rows of other files — and the Global
Content Index, which `_dedup_chunks` never queries — cannot suppress a
chunk (second conjunct). -/
theorem claim5_dedup_scoped_to_file :
    (∀ (st : DbState) (chunks : List ChunkV2) (fid : Nat) (c : ChunkV2) (h : String),
      c ∈ chunks → c.semantic_hash = some h →
      (c ∈ dedupChunks st chunks fid ↔
        ¬ ∃ r, r ∈ st.contents ∧ r.file_id = fid ∧ r.semantic_hash = some h)) ∧
    (∀ (st st2 : DbState) (chunks : List ChunkV2) (fid : Nat),
      st.contents.filter (fun r => decide (r.file_id = fid))
          = st2.contents.filter (fun r => decide (r.file_id = fid)) →
      dedupChunks st chunks fid = dedupChunks st2 chunks fid) := by
  constructor
  · intro st chunks fid c h hc hh
    unfold dedupChunks
    have hmemh : h ∈ chunks.filterMap (fun c2 => c2.semantic_hash) :=
      List.mem_filterMap.mpr ⟨c, hc, hh⟩
    rw [if_neg (by
      intro hemp
      rw [List.isEmpty_iff] at hemp
      rw [hemp] at hmemh
      simp at hmemh)]
    rw [List.mem_filter]
    constructor
    · rintro ⟨_, hpred⟩ hex
      rcases hex with ⟨r, hrmem, hfid, hrh⟩
      rw [hh] at hpred
      simp only [Bool.not_eq_eq_eq_not, Bool.not_true] at hpred
      have hmem2 := (mem_dedup_existing_iff st chunks fid h).mpr
        ⟨r, hrmem, hfid, hrh, List.elem_iff.mpr hmemh⟩
      have hcont : (_ : List String).contains h = true := List.elem_iff.mpr hmem2
      rw [hpred] at hcont
      exact absurd hcont (by simp)
    · intro hnex
      refine ⟨hc, ?_⟩
      rw [hh]
      simp only [Bool.not_eq_eq_eq_not, Bool.not_true]
      cases hcont : (_ : List String).contains h with
      | false => rfl
      | true =>
        rcases (mem_dedup_existing_iff st chunks fid h).mp
            (List.elem_iff.mp hcont) with ⟨r, hrmem, hfid, hrh, _⟩
        exact absurd ⟨r, hrmem, hfid, hrh⟩ hnex
  · intro st st2 chunks fid hfil
    have htrans : ∀ r : ContentRow,
        (r ∈ st.contents ∧ r.file_id = fid) ↔ (r ∈ st2.contents ∧ r.file_id = fid) := by
      intro r
      constructor
      · rintro ⟨hm, hf⟩
        have hin : r ∈ st.contents.filter (fun r => decide (r.file_id = fid)) :=
          List.mem_filter.mpr ⟨hm, by simp [hf]⟩
        rw [hfil] at hin
        have h2 := List.mem_filter.mp hin
        exact ⟨h2.1, by simpa using h2.2⟩
      · rintro ⟨hm, hf⟩
        have hin : r ∈ st2.contents.filter (fun r => decide (r.file_id = fid)) :=
          List.mem_filter.mpr ⟨hm, by simp [hf]⟩
        rw [← hfil] at hin
        have h2 := List.mem_filter.mp hin
        exact ⟨h2.1, by simpa using h2.2⟩
    unfold dedupChunks
    by_cases hemp : (chunks.filterMap (fun c => c.semantic_hash)).isEmpty = true
    · rw [if_pos hemp, if_pos hemp]
    · rw [if_neg hemp, if_neg hemp]
      apply List.filter_congr
      intro c _
      cases hsh : c.semantic_hash with
      | none => rfl
      | some h =>
        simp only []
        congr 1
        apply contains_eq_of_mem_iff h
        rw [mem_dedup_existing_iff st chunks fid h, mem_dedup_existing_iff st2 chunks fid h]
        constructor
        · rintro ⟨r, hrmem, hfid, hrh, hcont⟩
          rcases (htrans r).mp ⟨hrmem, hfid⟩ with ⟨hm2, hf2⟩
          exact ⟨r, hm2, hf2, hrh, hcont⟩
        · rintro ⟨r, hrmem, hfid, hrh, hcont⟩
          rcases (htrans r).mpr ⟨hrmem, hfid⟩ with ⟨hm2, hf2⟩
          exact ⟨r, hm2, hf2, hrh, hcont⟩

/-- Witness for C5 at concrete inputs: a chunk whose hash appears only in a
different file is retained; one whose hash appears in the same file is
removed; and a state whose extra rows belong to another file produces the
same result as one without them. -/
theorem claim5_witness :
    (⟨some ['x'], some ['x'], some 1, some "h"⟩ : ChunkV2) ∈
      dedupChunks ⟨[], [⟨9, 0, some ['x'], some "h"⟩], [], []⟩
        [⟨some ['x'], some ['x'], some 1, some "h"⟩] 7 ∧
    ¬ ((⟨some ['x'], some ['x'], some 1, some "h"⟩ : ChunkV2) ∈
      dedupChunks ⟨[], [⟨7, 0, some ['x'], some "h"⟩], [], []⟩
        [⟨some ['x'], some ['x'], some 1, some "h"⟩] 7) ∧
    dedupChunks ⟨[], [⟨9, 0, some ['x'], some "h"⟩], [], []⟩
        [⟨some ['x'], some ['x'], some 1, some "h"⟩] 7
      = dedupChunks ⟨[], [], [], []⟩
        [⟨some ['x'], some ['x'], some 1, some "h"⟩] 7 := by
  refine ⟨?_, ?_, ?_⟩
  · exact (claim5_dedup_scoped_to_file.1 ⟨[], [⟨9, 0, some ['x'], some "h"⟩], [], []⟩
      [⟨some ['x'], some ['x'], some 1, some "h"⟩] 7
      ⟨some ['x'], some ['x'], some 1, some "h"⟩ "h"
      (List.mem_singleton_self _) rfl).mpr (by decide)
  · intro hmem
    have h2 := (claim5_dedup_scoped_to_file.1 ⟨[], [⟨7, 0, some ['x'], some "h"⟩], [], []⟩
      [⟨some ['x'], some ['x'], some 1, some "h"⟩] 7
      ⟨some ['x'], some ['x'], some 1, some "h"⟩ "h"
      (List.mem_singleton_self _) rfl).mp hmem
    exact h2 ⟨⟨7, 0, some ['x'], some "h"⟩, by decide, rfl, rfl⟩
  · exact claim5_dedup_scoped_to_file.2 ⟨[], [⟨9, 0, some ['x'], some "h"⟩], [], []⟩
      ⟨[], [], [], []⟩ [⟨some ['x'], some ['x'], some 1, some "h"⟩] 7 (by decide)

/-! ## Claim C7 -/

/-- C7: the `(result.scalar() or -1) + 1` computation of `_insert_chunks`
treats an existing maximum `chunk_index` of `0` like `NULL` (Python `or`
falsiness), so a file whose single existing chunk has index 0 restarts the
numbering at 0 instead of 1, producing a duplicate `chunk_index` 0 and
violating the dense-range claim; the computation is correct for an empty
file (start 0) and for any nonzero maximum (start max+1). -/
theorem claim7_start_index_or_bug :
    maxChunkIndex [⟨5, 0, none, none⟩] 5 = some 0 ∧
    startIndexOf (some 0) = 0 ∧ 0 ≠ 0 + 1 ∧
    ((insertChunks ⟨[], [⟨5, 0, none, none⟩], [], []⟩ 5
        [⟨some ['x'], some ['x'], some 1, some "h"⟩]).contents.map
      (fun r => r.chunk_index)) = [0, 0] ∧
    startIndexOf none = 0 ∧ startIndexOf (some 3) = 3 + 1 :=
  ⟨by decide, by decide, by decide, by decide, by decide, by decide⟩

/-! ## Claim C1 -/

theorem find?_updateFileStatus (st : DbState) (fid j t : Nat) (s : FileStatus) :
    (updateFileStatus st fid t s).files.find? (fun f => f.id == j)
      = (st.files.find? (fun f => f.id == j)).map
          (fun f => if f.id == fid then { f with total_chunks := t, status := s } else f) := by
  unfold updateFileStatus
  rw [List.find?_map]
  have hfun : ((fun f : FileRec => f.id == j) ∘
      (fun f => if f.id == fid then { f with total_chunks := t, status := s } else f))
        = (fun f : FileRec => f.id == j) := by
    funext f
    by_cases h : (f.id == fid) = true
    · simp [Function.comp, h]
    · simp [Function.comp, h]
  rw [hfun]

/-- C1: when a File Record with the same `meta_data["file_hash"]`, status
`processed`, and a different id exists (stated as: the media-dedup query
returns exactly that one record, which is how `scalar_one_or_none` reads a
store satisfying the spec uniqueness invariant), `process_file` stops before
parsing: the current record is set to `duplicate` with `total_chunks = 0`,
and no Chunk Record, Global Content Index entry or vector is created; the
previously `processed` record is left untouched, so after ingesting the same
bytes twice the first record stays `processed` and the second ends
`duplicate`. -/
theorem claim1_media_dedup_stops
    (shash : List Char → String) (hashF : List Nat → String)
    (llmE : List Char → List Char) (st : DbState) (fid : Nat)
    (bytes : List Nat) (ptext : Option (List Char)) (rec g : FileRec)
    (hfind : st.files.find? (fun f => f.id == fid) = some rec)
    (hpath : rec.hasPath = true)
    (hmatches : processedHashMatches st.files (hashF bytes) = [g])
    (hgid : g.id ≠ fid) :
    processFileModel shash hashF llmE st fid bytes ptext
        = updateFileStatus st fid 0 FileStatus.duplicate ∧
    fileStatusOf (processFileModel shash hashF llmE st fid bytes ptext) fid
        = some FileStatus.duplicate ∧
    totalChunksOf (processFileModel shash hashF llmE st fid bytes ptext) fid
        = some 0 ∧
    (processFileModel shash hashF llmE st fid bytes ptext).contents = st.contents ∧
    (processFileModel shash hashF llmE st fid bytes ptext).gci = st.gci ∧
    (processFileModel shash hashF llmE st fid bytes ptext).vectors = st.vectors ∧
    g ∈ (processFileModel shash hashF llmE st fid bytes ptext).files ∧
    g.status = FileStatus.processed := by
  have hgmatch : g ∈ processedHashMatches st.files (hashF bytes) := by
    rw [hmatches]
    exact List.mem_singleton_self g
  have hgfilter := List.mem_filter.mp hgmatch
  have hgmem : g ∈ st.files := hgfilter.1
  have hgprops := of_decide_eq_true hgfilter.2
  have hmain : processFileModel shash hashF llmE st fid bytes ptext
      = updateFileStatus st fid 0 FileStatus.duplicate := by
    unfold processFileModel
    rw [hfind]
    simp [hpath, hmatches, hgid]
  have hrecid := List.find?_some hfind
  have hrecid2 : rec.id = fid := by simpa using hrecid
  refine ⟨hmain, ?_, ?_, ?_, ?_, ?_, ?_, hgprops.2⟩
  · rw [hmain]
    unfold fileStatusOf
    rw [find?_updateFileStatus, hfind]
    simp [hrecid2]
  · rw [hmain]
    unfold totalChunksOf
    rw [find?_updateFileStatus, hfind]
    simp [hrecid2]
  · rw [hmain]
    rfl
  · rw [hmain]
    rfl
  · rw [hmain]
    rfl
  · rw [hmain]
    unfold updateFileStatus
    refine List.mem_map.mpr ⟨g, hgmem, ?_⟩
    have hgidb : (g.id == fid) = false := by
      simp [hgid]
    rw [hgidb]
    simp

/-- Witness for C1: a concrete store with a `processed` record carrying the
same file hash as the incoming bytes of a second, distinct record; the
second run stops as a duplicate. -/
theorem claim1_witness :
    processFileModel (fun _ => "s") (fun _ => "H") (fun _ => [])
        ⟨[⟨1, some "H", FileStatus.processed, 3, true⟩,
          ⟨2, none, FileStatus.uploaded, 0, true⟩], [], [], []⟩ 2 [1, 2, 3]
        (some "Revenue grew.".toList)
      = updateFileStatus
          ⟨[⟨1, some "H", FileStatus.processed, 3, true⟩,
            ⟨2, none, FileStatus.uploaded, 0, true⟩], [], [], []⟩ 2 0
          FileStatus.duplicate ∧
    fileStatusOf
        (processFileModel (fun _ => "s") (fun _ => "H") (fun _ => [])
          ⟨[⟨1, some "H", FileStatus.processed, 3, true⟩,
            ⟨2, none, FileStatus.uploaded, 0, true⟩], [], [], []⟩ 2 [1, 2, 3]
          (some "Revenue grew.".toList)) 2
      = some FileStatus.duplicate := by
  have h := claim1_media_dedup_stops (fun _ => "s") (fun _ => "H") (fun _ => [])
    ⟨[⟨1, some "H", FileStatus.processed, 3, true⟩,
      ⟨2, none, FileStatus.uploaded, 0, true⟩], [], [], []⟩ 2 [1, 2, 3]
    (some "Revenue grew.".toList)
    ⟨2, none, FileStatus.uploaded, 0, true⟩
    ⟨1, some "H", FileStatus.processed, 3, true⟩
    (by decide) (by decide) (by decide) (by decide)
  exact ⟨h.1, h.2.1⟩

/-! ## Claim C6 -/

theorem prefix_ensure {α : Type} (cs : List α) (p : α → Bool) (x : α) :
    cs <+: (if cs.any p then cs else cs ++ [x]) := by
  by_cases h : cs.any p = true
  · rw [if_pos h]
  · rw [if_neg h]
    exact List.prefix_append cs [x]

/-- C6 (amended): when a relational write of `process_and_store_document`
fails, only the changes of the transaction open at that moment are rolled
back: the Content row and the Entity Link row never survive a failure (the
store keeps its prior `contents` and `links`), but Taxonomy Category and
Business rows auto-created by the earlier, already-committed transactions of
the same call persist (the prior `categories` and `businesses` are only ever
extended, never restored). -/
theorem claim6_partial_rollback (fingerprintOf : List Char → String) (st : RelState)
    (rawText : List Char) (fileName category subcategory : String) (k : Nat)
    (e : RelState)
    (herr : processAndStoreDocument fingerprintOf st rawText fileName category
        subcategory (some k) = Except.error e) :
    e.contents = st.contents ∧ e.links = st.links ∧
    st.categories <+: e.categories ∧ st.businesses <+: e.businesses := by
  simp only [processAndStoreDocument] at herr
  by_cases hdup : (st.contents.any
      (fun c => c.fingerprint == fingerprintOf (cleanText rawText))) = true
  · rw [if_pos hdup] at herr
    simp at herr
  · rw [if_neg hdup] at herr
    by_cases hk1 : (some k : Option Nat) = some 1
    · rw [if_pos hk1] at herr
      simp only [Except.error.injEq] at herr
      subst herr
      exact ⟨rfl, rfl, List.prefix_rfl, List.prefix_rfl⟩
    · rw [if_neg hk1] at herr
      by_cases hk2 : (some k : Option Nat) = some 2
      · rw [if_pos hk2] at herr
        simp only [Except.error.injEq] at herr
        subst herr
        exact ⟨rfl, rfl, prefix_ensure _ _ _, List.prefix_rfl⟩
      · rw [if_neg hk2] at herr
        by_cases hk3 : (some k : Option Nat) = some 3
        · rw [if_pos hk3] at herr
          simp only [Except.error.injEq] at herr
          subst herr
          exact ⟨rfl, rfl, (prefix_ensure _ _ _).trans (prefix_ensure _ _ _),
            List.prefix_rfl⟩
        · rw [if_neg hk3] at herr
          by_cases hk4 : (some k : Option Nat) = some 4
          · rw [if_pos hk4] at herr
            simp only [Except.error.injEq] at herr
            subst herr
            exact ⟨rfl, rfl, (prefix_ensure _ _ _).trans (prefix_ensure _ _ _),
              prefix_ensure _ _ _⟩
          · rw [if_neg hk4] at herr
            simp at herr

/-- C6 counterexample: with an initially empty relational store and a
failure of the final (content-and-link) commit, the auto-created Taxonomy
Category rows and the auto-created Business row remain committed — the
store is not left as it was before the call, refuting the claim that every
relational change of the call is rolled back. -/
theorem claim6_counterexample :
    processAndStoreDocument (fun _ => "F") ⟨[], [], [], []⟩ "doc".toList "f.txt"
        "Marketing" "General" (some 4)
      = Except.error ⟨[⟨"Marketing", "content", "Auto-generated"⟩,
          ⟨"General", "content", "Auto-generated subcategory"⟩],
          [⟨"Manual Upload Business", "General",
            "Placeholder business for manual uploads."⟩], [], []⟩ ∧
    (⟨[⟨"Marketing", "content", "Auto-generated"⟩,
        ⟨"General", "content", "Auto-generated subcategory"⟩],
        [⟨"Manual Upload Business", "General",
          "Placeholder business for manual uploads."⟩], [], []⟩ : RelState)
      ≠ ⟨[], [], [], []⟩ :=
  ⟨rfl, by simp⟩

/-- Witness for the amended C6 theorem at the concrete failing run of the
counterexample state. -/
theorem claim6_witness :
    (⟨[⟨"Marketing", "content", "Auto-generated"⟩,
        ⟨"General", "content", "Auto-generated subcategory"⟩],
        [⟨"Manual Upload Business", "General",
          "Placeholder business for manual uploads."⟩], [], []⟩ : RelState).contents
      = (⟨[], [], [], []⟩ : RelState).contents ∧
    (⟨[⟨"Marketing", "content", "Auto-generated"⟩,
        ⟨"General", "content", "Auto-generated subcategory"⟩],
        [⟨"Manual Upload Business", "General",
          "Placeholder business for manual uploads."⟩], [], []⟩ : RelState).links
      = (⟨[], [], [], []⟩ : RelState).links ∧
    (⟨[], [], [], []⟩ : RelState).categories <+:
      (⟨[⟨"Marketing", "content", "Auto-generated"⟩,
        ⟨"General", "content", "Auto-generated subcategory"⟩],
        [⟨"Manual Upload Business", "General",
          "Placeholder business for manual uploads."⟩], [], []⟩ : RelState).categories ∧
    (⟨[], [], [], []⟩ : RelState).businesses <+:
      (⟨[⟨"Marketing", "content", "Auto-generated"⟩,
        ⟨"General", "content", "Auto-generated subcategory"⟩],
        [⟨"Manual Upload Business", "General",
          "Placeholder business for manual uploads."⟩], [], []⟩ : RelState).businesses :=
  claim6_partial_rollback (fun _ => "F") ⟨[], [], [], []⟩ "doc".toList "f.txt"
    "Marketing" "General" 4 _ rfl

/-! ## Claims C8 and C10 -/

theorem classifyLoop_none (jsonParse : String → Option JTop)
    (behaviour : Nat → LlmResp) :
    ∀ (n i : Nat), (∀ j, j < n → attemptStep jsonParse (behaviour (i + j)) = none) →
      classifyLoop jsonParse behaviour i n = none := by
  intro n
  induction n with
  | zero =>
    intro i _
    rfl
  | succ m ih =>
    intro i hall
    rw [classifyLoop]
    have h0 := hall 0 (Nat.succ_pos m)
    rw [Nat.add_zero] at h0
    rw [h0]
    refine ih (i + 1) ?_
    intro j hj
    have hstep := hall (j + 1) (Nat.succ_lt_succ hj)
    rwa [(show i + (j + 1) = i + 1 + j by omega)] at hstep

/-- C8: `classify_text_with_llm` never propagates an exception (the
embedding is a total function because the source catches every exception of
the loop body), and whenever every attempt fails — unreachable endpoint,
empty response, malformed JSON, or a result whose `category_level_1` is
`"Uncategorized"` or absent, all of which make `attemptStep` yield `none` —
the caller receives the fallback record with `category_level_1 =
"Uncategorized"`, `extraction_confidence = 0.4`, and the input text
truncated to 200 characters as `description`. -/
theorem claim8_classifier_fallback (jsonParse : String → Option JTop)
    (behaviour : Nat → LlmResp) (text : String) (maxRetries : Nat)
    (hne : pyStripStr text ≠ "")
    (hbad : ∀ i, i < maxRetries → attemptStep jsonParse (behaviour i) = none) :
    classifyTextWithLlm jsonParse behaviour text maxRetries = fallbackRecord text ∧
    lookupField (fallbackRecord text) "category_level_1"
      = some (JVal.str "Uncategorized") ∧
    lookupField (fallbackRecord text) "extraction_confidence"
      = some (JVal.num (2 / 5)) ∧
    lookupField (fallbackRecord text) "description"
      = some (JVal.str (text.take 200)) := by
  refine ⟨?_, rfl, rfl, rfl⟩
  unfold classifyTextWithLlm
  rw [if_neg hne]
  rw [classifyLoop_none jsonParse behaviour maxRetries 0
    (fun j hj => by simpa using hbad j hj)]

/-- Witness for C8: an unreachable LLM endpoint on both attempts yields the
fallback record. -/
theorem claim8_witness :
    classifyTextWithLlm (fun _ => none) (fun _ => LlmResp.excn) "x" 2
      = fallbackRecord "x" ∧
    lookupField (fallbackRecord "x") "category_level_1"
      = some (JVal.str "Uncategorized") ∧
    lookupField (fallbackRecord "x") "extraction_confidence"
      = some (JVal.num (2 / 5)) ∧
    lookupField (fallbackRecord "x") "description"
      = some (JVal.str ("x".take 200)) :=
  claim8_classifier_fallback (fun _ => none) (fun _ => LlmResp.excn) "x" 2
    (by decide) (fun _ _ => rfl)

/-- C10: for empty or whitespace-only input, `classify_text_with_llm`
returns — for every LLM behaviour, hence without any request reaching the
endpoint — the fixed record with `category_level_1 = "Uncategorized"`,
`category_level_2_sub = "General Business"`, `title = "Empty Input"` and
`extraction_confidence = 0.0`, which differs from the retry-exhaustion
fallback value 0.4. -/
theorem claim10_empty_input_record (jsonParse : String → Option JTop)
    (behaviour : Nat → LlmResp) (text : String) (maxRetries : Nat)
    (hempty : pyStripStr text = "") :
    classifyTextWithLlm jsonParse behaviour text maxRetries = emptyInputRecord ∧
    lookupField emptyInputRecord "category_level_1" = some (JVal.str "Uncategorized") ∧
    lookupField emptyInputRecord "category_level_2_sub"
      = some (JVal.str "General Business") ∧
    lookupField emptyInputRecord "title" = some (JVal.str "Empty Input") ∧
    lookupField emptyInputRecord "extraction_confidence" = some (JVal.num 0) ∧
    JVal.num 0 ≠ JVal.num (2 / 5) := by
  have hne : (0 : Rat) ≠ 2 / 5 := by norm_num
  refine ⟨?_, by decide, by decide, by decide, by decide,
    fun h => hne (JVal.num.inj h)⟩
  unfold classifyTextWithLlm
  rw [if_pos hempty]

/-- Witness for C10: whitespace-only input with an arbitrary concrete LLM
behaviour yields the fixed empty-input record. -/
theorem claim10_witness :
    classifyTextWithLlm (fun _ => none) (fun _ => LlmResp.resp "ignored") "  " 2
      = emptyInputRecord ∧
    lookupField emptyInputRecord "category_level_1" = some (JVal.str "Uncategorized") ∧
    lookupField emptyInputRecord "category_level_2_sub"
      = some (JVal.str "General Business") ∧
    lookupField emptyInputRecord "title" = some (JVal.str "Empty Input") ∧
    lookupField emptyInputRecord "extraction_confidence" = some (JVal.num 0) ∧
    JVal.num 0 ≠ JVal.num (2 / 5) :=
  claim10_empty_input_record (fun _ => none) (fun _ => LlmResp.resp "ignored") "  " 2
    (by decide)

end MA
